import Mathlib

/-!
Verification of the poweradmin-scripts translation tooling.

The repository consists of three Python scripts sharing one data model:
`check_translations.py` (analyzer), `extract_untranslated.py` (parser and
exporter) and `import_translations.py` (catalog updater).  Strings are
modelled as `List Char`; Python `dict`s become association lists with
last-write-wins insertion; fallible regex matching returns `Option`.
Recursions that are not structural in the source (regex scanning,
`str.replace`) are given fuel equal to the input length, which such a
scan can never exhaust because every step consumes at least one element.
-/

set_option maxRecDepth 4000

/-- Python whitespace predicate used by `str.strip` and the regex class
backslash-s, restricted to the ASCII whitespace characters. -/
def isPySpace (c : Char) : Bool :=
  c = ' ' || c = '\t' || c = '\n' || c = '\r' || c = '\x0b' || c = '\x0c'

/-- Python `str.strip()`: drop leading and trailing whitespace. -/
def pyStrip (s : List Char) : List Char :=
  ((s.dropWhile isPySpace).reverse.dropWhile isPySpace).reverse

/-- Python `str.startswith(pat)` (first argument is the pattern). -/
def startsWith : List Char → List Char → Bool
  | [], _ => true
  | _ :: _, [] => false
  | a :: as, b :: bs => a == b && startsWith as bs

/-- Python `str.endswith(c)` for a single character. -/
def endsWithCh (c : Char) (s : List Char) : Bool :=
  match s.reverse with
  | [] => false
  | d :: _ => d == c

/-- Python substring membership `pat in s`. -/
def containsSub (pat : List Char) : List Char → Bool
  | [] => startsWith pat []
  | c :: cs => startsWith pat (c :: cs) || containsSub pat cs

/-- Python `str.split(sep)` for a one-character separator. -/
def splitOnCh (sep : Char) : List Char → List (List Char)
  | [] => [[]]
  | c :: cs =>
    if c = sep then [] :: splitOnCh sep cs
    else
      match splitOnCh sep cs with
      | h :: t => (c :: h) :: t
      | [] => [[c]]

/-- Python `str.split('\n')`. -/
def splitNL (s : List Char) : List (List Char) := splitOnCh '\n' s

/-- Python `sep.join(parts)`. -/
def joinWith (sep : List Char) : List (List Char) → List Char
  | [] => []
  | [l] => l
  | l :: l2 :: ls => l ++ sep ++ joinWith sep (l2 :: ls)

/-- Association-list lookup keyed by strings (Python `dict` read;
entries are prepended on write so the first hit is the last write). -/
def lookupA (k : List Char) : List (List Char × α) → Option α
  | [] => none
  | (k', v) :: r => if k = k' then some v else lookupA k r

/-- Association-list lookup keyed by naturals (plural-index maps). -/
def lookupNA (k : Nat) : List (Nat × α) → Option α
  | [] => none
  | (k', v) :: r => if k = k' then some v else lookupNA k r

/-- Association-list write keyed by naturals, replacing in place as a
Python `dict` assignment does. -/
def insertNA (k : Nat) (v : α) : List (Nat × α) → List (Nat × α)
  | [] => [(k, v)]
  | (k', v') :: r => if k = k' then (k, v) :: r else (k', v') :: insertNA k v r

/-- Python `int(...)` on a digit string. -/
def digitsToNat (ds : List Char) : Nat :=
  ds.foldl (fun acc c => acc * 10 + (c.toNat - '0'.toNat)) 0

/-- One fuelled step-scan implementing Python `str.replace(pat, rep)`:
leftmost non-overlapping matches, scanning left to right.  Fuel at least
the input length is enough since every step consumes one character. -/
def pyReplaceF (pat rep : List Char) : Nat → List Char → List Char
  | _, [] => []
  | 0, s => s
  | f + 1, c :: cs =>
    if !pat.isEmpty && startsWith pat (c :: cs) then
      rep ++ pyReplaceF pat rep f ((c :: cs).drop pat.length)
    else c :: pyReplaceF pat rep f cs

/-- Python `s.replace(pat, rep)` (with a nonempty pattern). -/
def pyReplace (pat rep s : List Char) : List Char :=
  pyReplaceF pat rep s.length s

theorem startsWith_nil_left (s : List Char) : startsWith [] s = true := by
  cases s <;> rfl

theorem startsWith_length_le : ∀ pat s : List Char,
    startsWith pat s = true → pat.length ≤ s.length
  | [], _, _ => Nat.zero_le _
  | _ :: _, [], h => by simp [startsWith] at h
  | a :: as, b :: bs, h => by
    simp only [startsWith, Bool.and_eq_true] at h
    exact Nat.succ_le_succ (startsWith_length_le as bs h.2)

theorem pyReplaceF_irrel (pat rep : List Char) :
    ∀ f1 f2 s : _, s.length ≤ f1 → s.length ≤ f2 →
      pyReplaceF pat rep f1 s = pyReplaceF pat rep f2 s := by
  intro f1
  induction f1 with
  | zero =>
    intro f2 s h1 _
    have : s = [] := List.length_eq_zero.1 (Nat.le_zero.1 h1)
    subst this; cases f2 <;> rfl
  | succ f ih =>
    intro f2 s h1 h2
    cases s with
    | nil => cases f2 <;> rfl
    | cons c cs =>
      cases f2 with
      | zero => exact absurd h2 (by simp)
      | succ g =>
        simp only [pyReplaceF]
        by_cases hc : (!pat.isEmpty && startsWith pat (c :: cs)) = true
        · rw [if_pos hc, if_pos hc]
          have hplen : 1 ≤ pat.length := by
            cases pat with
            | nil => simp at hc
            | cons _ _ => exact Nat.succ_le_succ (Nat.zero_le _)
          have hd : ((c :: cs).drop pat.length).length ≤ f := by
            rw [List.length_drop]
            have : (c :: cs).length ≤ f + 1 := h1
            omega
          have hd2 : ((c :: cs).drop pat.length).length ≤ g := by
            rw [List.length_drop]
            have : (c :: cs).length ≤ g + 1 := h2
            omega
          rw [ih _ _ hd hd2]
        · rw [if_neg hc, if_neg hc]
          have hl : cs.length ≤ f := Nat.le_of_succ_le_succ h1
          have hl2 : cs.length ≤ g := Nat.le_of_succ_le_succ h2
          rw [ih _ _ hl hl2]

theorem pyReplace_nil (pat rep : List Char) : pyReplace pat rep [] = [] := rfl

theorem pyReplace_cons (pat rep : List Char) (c : Char) (cs : List Char) :
    pyReplace pat rep (c :: cs) =
      if !pat.isEmpty && startsWith pat (c :: cs) then
        rep ++ pyReplace pat rep ((c :: cs).drop pat.length)
      else c :: pyReplace pat rep cs := by
  show pyReplaceF pat rep (cs.length + 1) (c :: cs) = _
  simp only [pyReplaceF]
  by_cases hc : (!pat.isEmpty && startsWith pat (c :: cs)) = true
  · rw [if_pos hc, if_pos hc]
    have hplen : 1 ≤ pat.length := by
      cases pat with
      | nil => simp at hc
      | cons _ _ => exact Nat.succ_le_succ (Nat.zero_le _)
    have hd : ((c :: cs).drop pat.length).length ≤ cs.length := by
      rw [List.length_drop]; simp; omega
    rw [pyReplaceF_irrel pat rep cs.length ((c :: cs).drop pat.length).length _ hd le_rfl]
    rfl
  · rw [if_neg hc, if_neg hc]
    rfl

/-- Concatenated map over a character list (used to describe the combined
effect of the escaping `replace` chains). -/
def mapConcat (f : Char → List Char) : List Char → List Char
  | [] => []
  | c :: cs => f c ++ mapConcat f cs

theorem pyReplace_single (a : Char) (rep : List Char) :
    ∀ s : List Char, pyReplace [a] rep s = mapConcat (fun c => if c = a then rep else [c]) s := by
  intro s
  induction s with
  | nil => rfl
  | cons c cs ih =>
    rw [pyReplace_cons]
    by_cases hca : c = a
    · subst hca
      have h : (!List.isEmpty [c] && startsWith [c] (c :: cs)) = true := by
        simp [startsWith, startsWith_nil_left, List.isEmpty]
      rw [if_pos h]
      simp only [mapConcat, if_pos rfl, List.length_singleton, List.drop_succ_cons,
        List.drop_zero, if_true]
      rw [ih]
    · have h : ¬ (!List.isEmpty [a] && startsWith [a] (c :: cs)) = true := by
        simp [startsWith, startsWith_nil_left, List.isEmpty]
        exact fun hh => absurd hh.symm hca
      rw [if_neg h]
      simp only [mapConcat, if_neg hca]
      rw [ih]
      rfl

/-- The escaping performed by `PoUpdater._format_string` before wrapping:
backslash, then quote, then tab (`import_translations.py`, lines 193-196). -/
def escape (s : List Char) : List Char :=
  pyReplace ['\t'] ['\\', 't']
    (pyReplace ['"'] ['\\', '"']
      (pyReplace ['\\'] ['\\', '\\'] s))

/-- The unescaping performed by every `extract_string` in the repository:
backslash-n, backslash-t, backslash-quote, backslash-backslash, in that
order (`import_translations.py` lines 184-188, `check_translations.py`
lines 152-156, `extract_untranslated.py` lines 140-144). -/
def unescape (s : List Char) : List Char :=
  pyReplace ['\\', '\\'] ['\\']
    (pyReplace ['\\', '"'] ['"']
      (pyReplace ['\\', 't'] ['\t']
        (pyReplace ['\\', 'n'] ['\n'] s)))

/-- Per-character form of `escape`. -/
def tok (c : Char) : List Char :=
  if c = '\\' then ['\\', '\\']
  else if c = '"' then ['\\', '"']
  else if c = '\t' then ['\\', 't']
  else [c]

/-- Per-character image after the backslash-t unescaping pass. -/
def tok2 (c : Char) : List Char :=
  if c = '\\' then ['\\', '\\']
  else if c = '"' then ['\\', '"']
  else [c]

/-- Per-character image after the backslash-quote unescaping pass. -/
def tok3 (c : Char) : List Char :=
  if c = '\\' then ['\\', '\\']
  else [c]

/-- Strings on which the escape/unescape pair is inverse: no literal
backslash immediately followed by the letter n or the letter t. -/
def goodStr (s : List Char) : Bool :=
  !(containsSub ['\\', 'n'] s) && !(containsSub ['\\', 't'] s)

/-- Every `_extract_string` / `extract_string` in the repository: strip,
then dequote-and-unescape if the result is quoted on both ends. -/
def extractString (s0 : List Char) : List Char :=
  let s := pyStrip s0
  if startsWith ['"'] s && endsWithCh '"' s then unescape ((s.drop 1).dropLast)
  else s

/-- Wrap a string in the double quotes of the catalog syntax. -/
def quoteL (s : List Char) : List Char := '"' :: (s ++ ['"'])

/-- The per-line wrapping loop of `PoUpdater._format_string` (lines
207-212): all but the last escaped line get an explicit backslash-n
marker; a wholly empty last line is omitted. -/
def wrapLines : List (List Char) → List (List Char)
  | [] => []
  | [l] => if l = [] then [] else [quoteL l]
  | l :: l2 :: ls => quoteL (l ++ ['\\', 'n']) :: wrapLines (l2 :: ls)

/-- `PoUpdater._format_string` (lines 191-213): escape, then either a
single short quoted line or an empty first line followed by the wrapped
lines. -/
def formatString (s0 : List Char) : List (List Char) :=
  let s := escape s0
  let lines := splitNL s
  if lines.length = 1 && decide (s.length < 70) then [quoteL s]
  else quoteL [] :: wrapLines lines

/-- A translation task record from the JSON payload, as consumed by
`PoUpdater` (optional fields model absent JSON keys). -/
structure TransTask where
  msgid : List Char
  translation : Option (List Char)
  msgid_plural : Option (List Char)
  translations : Option (List (Nat × List Char))
deriving DecidableEq

/-- Python truthiness of `entry.get('translation')` in
`PoUpdater.update` (lines 43 and 48). -/
def taskTruthy (t : TransTask) : Bool :=
  match t.translation with
  | some s => !s.isEmpty
  | none => false

/-- The lookup-map construction of `PoUpdater.update` (lines 41-49):
only tasks with a truthy translation are entered; later tasks with the
same msgid overwrite earlier ones (dict assignment). -/
def buildMap (ts : List TransTask) : List (List Char × TransTask) :=
  ts.foldl (fun acc t => if taskTruthy t then (t.msgid, t) :: acc else acc) []

/-- Match of the regex msgstr-bracket-digits-bracket-space against the
start of a line, returning the parsed index and the text after the
closing bracket and space (`re.match` on a stripped line). -/
def msgstrIdxParts (l : List Char) : Option (Nat × List Char) :=
  if startsWith ("msgstr[".toList) l then
    let r := l.drop 7
    let ds := r.takeWhile Char.isDigit
    if !ds.isEmpty && startsWith ("] ".toList) (r.drop ds.length) then
      some (digitsToNat ds, (r.drop ds.length).drop 2)
    else none
  else none

/-- The index alone, as used by `PoUpdater._update_block` line 150. -/
def parseMsgstrIdx (l : List Char) : Option Nat := (msgstrIdxParts l).map (·.1)

/-- Number of quoted continuation lines following a directive, as
counted by the skip loop of `PoUpdater._update_block` (lines 141-143). -/
def countCont (ls : List (List Char)) : Nat :=
  (ls.takeWhile (fun l => startsWith ['"'] (pyStrip l))).length

/-- Result of rewriting one block: the new lines plus the deltas to the
updated and fuzzy-cleared counters. -/
structure UpdRes where
  lines : List (List Char)
  upd : Nat
  fz : Nat
deriving DecidableEq

/-- The line loop of `PoUpdater._update_block` (lines 106-177).  The
`skip` argument models `skip_next`: Python stores the full continuation
count in it but uses it as a boolean that is reset after one line, so a
nonzero value skips exactly one line. -/
def updateGo (t : TransTask) (isFuzzy : Bool) : Nat → List (List Char) → UpdRes
  | _ + 1, _ :: rest => updateGo t isFuzzy 0 rest
  | _, [] => ⟨[], 0, 0⟩
  | 0, l :: rest =>
    if isFuzzy && startsWith ("#,".toList) (pyStrip l) && containsSub ("fuzzy".toList) l then
      let flags := ((splitOnCh ',' (l.drop 2)).map pyStrip).filter
        (fun f => f ≠ "fuzzy".toList)
      let r := updateGo t isFuzzy 0 rest
      ⟨(if flags = [] then [] else [("#, ".toList) ++ joinWith (", ".toList) flags])
        ++ r.lines, r.upd, r.fz + 1⟩
    else if startsWith ("msgstr \"".toList) (pyStrip l) && t.msgid_plural.isNone then
      let fmt := formatString (t.translation.getD [])
      let r := updateGo t isFuzzy (countCont rest) rest
      ⟨(("msgstr ".toList) ++ fmt.headD []) :: (fmt.drop 1 ++ r.lines), r.upd + 1, r.fz⟩
    else
      match parseMsgstrIdx (pyStrip l), t.translations with
      | some idx, some trs =>
        match lookupNA idx trs with
        | some tr =>
          let fmt := formatString tr
          let r := updateGo t isFuzzy (countCont rest) rest
          ⟨(("msgstr[".toList ++ (Nat.repr idx).toList ++ "] ".toList) ++ fmt.headD [])
            :: (fmt.drop 1 ++ r.lines), r.upd + 1, r.fz⟩
        | none =>
          let r := updateGo t isFuzzy 0 rest
          ⟨l :: r.lines, r.upd, r.fz⟩
      | _, _ =>
        let r := updateGo t isFuzzy 0 rest
        ⟨l :: r.lines, r.upd, r.fz⟩

/-- `PoUpdater._update_block` on a whole block: strip, split into lines,
rewrite, and rejoin with newlines; also reports the counter deltas. -/
def updateBlock (b : List Char) (t : TransTask) (isFuzzy : Bool) : List Char × Nat × Nat :=
  let r := updateGo t isFuzzy 0 (splitNL (pyStrip b))
  (joinWith ['\n'] r.lines, r.upd, r.fz)

/-- The msgid scanning loop of `PoUpdater._extract_msgid` (lines 89-104);
the flag records Python's `in_msgid`. -/
def extractMsgidGo : Bool → List (List Char) → List Char
  | _, [] => []
  | inM, l :: ls =>
    if startsWith ("msgid \"".toList) (pyStrip l) then
      extractString (pyStrip (l.drop 6)) ++ extractMsgidGo true ls
    else if inM && startsWith ['"'] (pyStrip l) then
      extractString (pyStrip l) ++ extractMsgidGo true ls
    else if inM then []
    else extractMsgidGo false ls

/-- `PoUpdater._extract_msgid` on a block. -/
def extractMsgid (b : List Char) : List Char :=
  extractMsgidGo false (splitNL (pyStrip b))

/-- Per-block dispatch of `PoUpdater._process_content` (lines 69-85):
whitespace-only pieces pass through, the plain map is consulted before
the fuzzy map, and unmatched blocks pass through unchanged. -/
def processBlock (tmap fmap : List (List Char × TransTask)) (b : List Char) :
    List Char × Nat × Nat :=
  if pyStrip b = [] then (b, 0, 0)
  else
    let m := extractMsgid b
    if m ≠ [] then
      match lookupA m tmap with
      | some t => updateBlock b t false
      | none =>
        match lookupA m fmap with
        | some t => updateBlock b t true
        | none => (b, 0, 0)
    else (b, 0, 0)

/-- Greedy match of whitespace-star-newline with backtracking, the tail
of the separator regex of `re.split` in `_process_content` line 66. -/
def matchWsNl : List Char → Option (List Char × List Char)
  | [] => none
  | c :: cs =>
    if isPySpace c then
      match matchWsNl cs with
      | some (m, r) => some (c :: m, r)
      | none => if c = '\n' then some ([c], cs) else none
    else none

/-- Match of the full separator regex newline-whitespace-star-newline at
the head of the input. -/
def matchSepAt : List Char → Option (List Char × List Char)
  | [] => none
  | c :: cs =>
    if c = '\n' then (matchWsNl cs).map (fun p => (c :: p.1, p.2)) else none

/-- Leftmost separator match: prefix before the match, the matched
separator, and the rest. -/
def findSep : List Char → Option (List Char × List Char × List Char)
  | [] => none
  | c :: cs =>
    match matchSepAt (c :: cs) with
    | some (m, r) => some ([], m, r)
    | none =>
      match findSep cs with
      | some (p, m, r) => some (c :: p, m, r)
      | none => none

/-- Fuelled splitting of the catalog text into alternating block and
separator pieces, keeping the captured separators as `re.split` does
with a capture group.  Each match consumes at least two characters, so
fuel equal to the length is never exhausted. -/
def splitKeepF : Nat → List Char → List (List Char)
  | 0, s => [s]
  | f + 1, s =>
    match findSep s with
    | none => [s]
    | some (p, m, r) => p :: m :: splitKeepF f r

/-- The block/separator decomposition of `_process_content` line 66. -/
def splitKeep (s : List Char) : List (List Char) := splitKeepF s.length s

/-- `PoUpdater._process_content` (lines 64-87): split, rewrite each
piece, and concatenate; the counter deltas of all pieces accumulate into
the updater's two counters. -/
def processContent (tmap fmap : List (List Char × TransTask)) (content : List Char) :
    List Char × Nat × Nat :=
  (splitKeep content).foldr
    (fun b acc =>
      let r := processBlock tmap fmap b
      (r.1 ++ acc.1, r.2.1 + acc.2.1, r.2.2 + acc.2.2))
    ([], 0, 0)

/-- The content-processing part of `PoUpdater.update` (lines 37-52):
build both lookup maps from the payload, then rewrite the content. -/
def updateModel (entries fuzzies : List TransTask) (content : List Char) :
    List Char × Nat × Nat :=
  processContent (buildMap entries) (buildMap fuzzies) content

/-- Python `\w` word character (ASCII model: alphanumeric or underscore). -/
def isWordChar (c : Char) : Bool := c.isAlphanum || c = '_'

/-- Fuelled extraction of the maximal word-character runs of a string,
modelling `re.findall` of word tokens in `is_excluded`. -/
def pyFindWordsF : Nat → List Char → List (List Char)
  | 0, _ => []
  | _, [] => []
  | f + 1, c :: cs =>
    if isWordChar c then
      (c :: cs.takeWhile isWordChar) :: pyFindWordsF f (cs.dropWhile isWordChar)
    else pyFindWordsF f cs

/-- The word tokens of a msgid (`re.findall` in `check_translations.py`
line 46 and `extract_untranslated.py` line 157). -/
def pyFindWords (s : List Char) : List (List Char) := pyFindWordsF s.length s

/-- Python `str.upper()` (ASCII model). -/
def pyUpper (s : List Char) : List Char := s.map Char.toUpper

/-- Python `str.isupper()`: at least one cased character and no cased
character lowercase (ASCII model: cased = alphabetic). -/
def pyIsUpper (s : List Char) : Bool :=
  s.any (fun c => c.isAlpha) && s.all (fun c => !c.isAlpha || c.isUpper)

/-- `is_excluded` from `check_translations.py` lines 36-54, identical to
`PoParser.is_excluded` in `extract_untranslated.py` lines 147-165: empty
exclusion set excludes nothing; otherwise direct membership, the
all-words-technical rule, then the short-all-uppercase heuristic. -/
def isExcluded (msgid : List Char) (exclusions : List (List Char)) : Bool :=
  if exclusions = [] then false
  else if msgid ∈ exclusions then true
  else
    let words := pyFindWords msgid
    if !words.isEmpty && words.all (fun w => pyUpper w ∈ exclusions.map pyUpper) then true
    else if decide (msgid.length ≤ 5) && pyIsUpper msgid then true
    else false

/-- An entry as built by `parse_block` in `check_translations.py`,
restricted to the fields `check_entry` reads. -/
structure CEntry where
  msgid : List Char
  msgid_plural : List Char
  msgstr : List Char
  msgstr_plural : List (Nat × List Char)
  obsolete : Bool
deriving DecidableEq

/-- `check_entry` from `check_translations.py` lines 160-188: classify
one entry, returning the (kind, msgid, description) issue tuples in
iteration order. -/
def checkEntry (e : CEntry) (exclusions : List (List Char)) (lang : List Char) :
    List (List Char × List Char × List Char) :=
  if e.obsolete || e.msgid = [] then []
  else if isExcluded e.msgid exclusions then []
  else
    let isEnglish := lang = "en_EN".toList
    if e.msgid_plural ≠ [] then
      e.msgstr_plural.foldr
        (fun p acc =>
          (if p.2 = [] then
            [("empty_plural".toList, e.msgid,
              "msgstr[".toList ++ (Nat.repr p.1).toList ++ "] is empty".toList)]
          else if !isEnglish && p.2 = e.msgid then
            [("untranslated_plural".toList, e.msgid,
              "msgstr[".toList ++ (Nat.repr p.1).toList
                ++ "] equals msgid (not translated)".toList)]
          else []) ++ acc)
        []
    else
      if e.msgstr = [] then
        [("empty".toList, e.msgid, "msgstr is empty".toList)]
      else if !isEnglish && e.msgstr = e.msgid then
        [("untranslated".toList, e.msgid, "msgstr equals msgid (not translated)".toList)]
      else []

/-- A `PoEntry` of `extract_untranslated.py` (lines 16-26). -/
structure PEntry where
  comments : List (List Char)
  locations : List (List Char)
  flags : List (List Char)
  msgid : List Char
  msgid_plural : List Char
  msgstr : List Char
  msgstr_plural : List (Nat × List Char)
  is_fuzzy : Bool
  is_untranslated : Bool
deriving DecidableEq

/-- The freshly constructed `PoEntry`. -/
def initPEntry : PEntry := ⟨[], [], [], [], [], [], [], false, false⟩

/-- Consume the quoted continuation lines following a directive line,
returning them together with the remaining lines (the inner while loops
of `PoParser._parse_block`). -/
def collectCont : List (List Char) → List (List Char) × List (List Char)
  | [] => ([], [])
  | l :: ls =>
    if startsWith ['"'] (pyStrip l) then
      match collectCont ls with
      | (f, r) => (l :: f, r)
    else ([], l :: ls)

/-- Concatenate the extracted values of a directive line fragment and
its continuation lines (`''.flatten` over `_extract_string` results). -/
def joinFrags (first : List Char) (conts : List (List Char)) : List Char :=
  (extractString first :: conts.map extractString).flatten

/-- The scanning loop of `PoParser._parse_block` in
`extract_untranslated.py` lines 56-116, carried out by explicit state
passing over the entry under construction.  Fuelled: each step consumes
at least the directive line itself, so fuel equal to the number of lines
is never exhausted. -/
def parseGoEF : Nat → PEntry → List (List Char) → PEntry
  | 0, e, _ => e
  | _, e, [] => e
  | fuel + 1, e, l0 :: ls =>
    let l := pyStrip l0
    if startsWith ("#.".toList) l then
      parseGoEF fuel ⟨e.comments ++ [l], e.locations, e.flags, e.msgid, e.msgid_plural,
        e.msgstr, e.msgstr_plural, e.is_fuzzy, e.is_untranslated⟩ ls
    else if startsWith ("#:".toList) l then
      parseGoEF fuel ⟨e.comments, e.locations ++ [pyStrip (l.drop 2)], e.flags, e.msgid,
        e.msgid_plural, e.msgstr, e.msgstr_plural, e.is_fuzzy, e.is_untranslated⟩ ls
    else if startsWith ("#,".toList) l then
      let fl := (splitOnCh ',' (pyStrip (l.drop 2))).map pyStrip
      parseGoEF fuel ⟨e.comments, e.locations, fl, e.msgid, e.msgid_plural, e.msgstr,
        e.msgstr_plural, e.is_fuzzy || decide (("fuzzy".toList) ∈ fl),
        e.is_untranslated⟩ ls
    else if startsWith ("#".toList) l then
      parseGoEF fuel ⟨e.comments ++ [l], e.locations, e.flags, e.msgid, e.msgid_plural,
        e.msgstr, e.msgstr_plural, e.is_fuzzy, e.is_untranslated⟩ ls
    else if startsWith ("msgid ".toList) l then
      match collectCont ls with
      | (f, r) =>
        parseGoEF fuel ⟨e.comments, e.locations, e.flags, joinFrags (l.drop 6) f,
          e.msgid_plural, e.msgstr, e.msgstr_plural, e.is_fuzzy, e.is_untranslated⟩ r
    else if startsWith ("msgid_plural ".toList) l then
      match collectCont ls with
      | (f, r) =>
        parseGoEF fuel ⟨e.comments, e.locations, e.flags, e.msgid, joinFrags (l.drop 13) f,
          e.msgstr, e.msgstr_plural, e.is_fuzzy, e.is_untranslated⟩ r
    else if startsWith ("msgstr ".toList) l then
      match collectCont ls with
      | (f, r) =>
        parseGoEF fuel ⟨e.comments, e.locations, e.flags, e.msgid, e.msgid_plural,
          joinFrags (l.drop 7) f, e.msgstr_plural, e.is_fuzzy, e.is_untranslated⟩ r
    else
      match msgstrIdxParts l with
      | some (idx, after) =>
        if after ≠ [] then
          match collectCont ls with
          | (f, r) =>
            parseGoEF fuel ⟨e.comments, e.locations, e.flags, e.msgid, e.msgid_plural,
              e.msgstr, insertNA idx (joinFrags after f) e.msgstr_plural,
              e.is_fuzzy, e.is_untranslated⟩ r
        else parseGoEF fuel e ls
      | none => parseGoEF fuel e ls

/-- The classification tail of `PoParser._parse_block` (lines 118-131):
set `is_untranslated` with no locale exemption of any kind. -/
def classifyE (e : PEntry) : PEntry :=
  if e.msgid ≠ [] then
    if e.msgid_plural ≠ [] then
      ⟨e.comments, e.locations, e.flags, e.msgid, e.msgid_plural, e.msgstr,
        e.msgstr_plural,
        e.is_fuzzy,
        (e.msgstr_plural.map (·.2)).any
          (fun ms => ms.isEmpty || ms = e.msgid || ms = e.msgid_plural)⟩
    else
      ⟨e.comments, e.locations, e.flags, e.msgid, e.msgid_plural, e.msgstr,
        e.msgstr_plural, e.is_fuzzy, e.msgstr.isEmpty || e.msgstr = e.msgid⟩
  else e

/-- The scanning loop with its fuel set to the number of lines. -/
def parseGoE (e : PEntry) (ls : List (List Char)) : PEntry :=
  parseGoEF ls.length e ls

/-- `PoParser._parse_block` on a whole block. -/
def parseBlockE (b : List Char) : PEntry :=
  classifyE (parseGoE initPEntry (splitNL (pyStrip b)))

/-- Selection predicate for the exporter's untranslated list. -/
def untrSel (excl : List (List Char)) (e : PEntry) : Bool :=
  !e.is_fuzzy && e.is_untranslated && !isExcluded e.msgid excl

/-- Selection predicate for the exporter's fuzzy list. -/
def fuzzySel (excl : List (List Char)) (e : PEntry) : Bool :=
  e.is_fuzzy && !isExcluded e.msgid excl

/-- Predicate counted by the exporter's reported total (line 243 of
`extract_untranslated.py`): untranslated and not excluded, with no
regard to the fuzzy flag. -/
def untrTotal (excl : List (List Char)) (e : PEntry) : Bool :=
  e.is_untranslated && !isExcluded e.msgid excl

/-- The selection loop of `main` in `extract_untranslated.py` lines
225-235: fuzzy entries first, then untranslated ones, excluded entries
counted. -/
def selectLoop (excl : List (List Char)) : List PEntry → List PEntry × List PEntry × Nat
  | [] => ([], [], 0)
  | e :: rest =>
    let r := selectLoop excl rest
    if e.is_fuzzy then
      if !isExcluded e.msgid excl then (r.1, e :: r.2.1, r.2.2)
      else (r.1, r.2.1, r.2.2 + 1)
    else if e.is_untranslated then
      if !isExcluded e.msgid excl then (e :: r.1, r.2.1, r.2.2)
      else (r.1, r.2.1, r.2.2 + 1)
    else r

/-- The output record assembled by the exporter's `main`. -/
structure ExtractOut where
  untranslated : List PEntry
  fuzzy : List PEntry
  untranslated_count : Nat
  fuzzy_count : Nat
  total_untranslated : Nat
  excluded_count : Nat
deriving DecidableEq

/-- Lines 220-251 of `extract_untranslated.py`: select, truncate when
the limit is truthy (Python `if limit:` is false for both absent and
zero), and compute the reported counts; the total is computed from the
full entry list after truncation has happened. -/
def extractMain (entries : List PEntry) (excl : List (List Char))
    (limit : Option Nat) : ExtractOut :=
  let sel := selectLoop excl entries
  let truncQ : Bool := match limit with | some n => decide (0 < n) | none => false
  let u := if truncQ then sel.1.take (limit.getD 0) else sel.1
  let f := if truncQ then sel.2.1.take (limit.getD 0) else sel.2.1
  let total := (entries.filter (untrTotal excl)).length
  ⟨u, f, u.length, f.length, total, sel.2.2⟩

theorem matchWsNl_eq : ∀ s m r : List Char, matchWsNl s = some (m, r) → m ++ r = s := by
  intro s
  induction s with
  | nil => intro m r h; simp [matchWsNl] at h
  | cons c cs ih =>
    intro m r h
    simp only [matchWsNl] at h
    by_cases hsp : isPySpace c = true
    · rw [if_pos hsp] at h
      cases hw : matchWsNl cs with
      | some p =>
        rw [hw] at h
        cases p with
        | mk m' r' =>
          simp only [Option.some.injEq, Prod.mk.injEq] at h
          obtain ⟨hm, hr⟩ := h
          subst hm; subst hr
          simpa using congrArg (c :: ·) (ih m' r' hw)
      | none =>
        rw [hw] at h
        by_cases hnl : c = '\n'
        · rw [if_pos hnl] at h
          simp only [Option.some.injEq, Prod.mk.injEq] at h
          obtain ⟨hm, hr⟩ := h
          subst hm; subst hr; rfl
        · rw [if_neg hnl] at h; cases h
    · rw [if_neg hsp] at h; cases h

theorem matchSepAt_eq : ∀ s m r : List Char, matchSepAt s = some (m, r) → m ++ r = s := by
  intro s
  cases s with
  | nil => intro m r h; cases h
  | cons c cs =>
    intro m r h
    simp only [matchSepAt] at h
    by_cases hnl : c = '\n'
    · rw [if_pos hnl] at h
      cases hw : matchWsNl cs with
      | some p =>
        rw [hw] at h
        cases p with
        | mk m' r' =>
          simp only [Option.map_some', Option.some.injEq, Prod.mk.injEq] at h
          obtain ⟨hm, hr⟩ := h
          subst hm; subst hr
          simpa using congrArg (c :: ·) (matchWsNl_eq cs m' r' hw)
      | none => rw [hw] at h; cases h
    · rw [if_neg hnl] at h; cases h

theorem findSep_eq : ∀ s p m r : List Char, findSep s = some (p, m, r) → p ++ m ++ r = s := by
  intro s
  induction s with
  | nil => intro p m r h; cases h
  | cons c cs ih =>
    intro p m r h
    simp only [findSep] at h
    cases hms : matchSepAt (c :: cs) with
    | some q =>
      rw [hms] at h
      cases q with
      | mk m' r' =>
        simp only [Option.some.injEq, Prod.mk.injEq] at h
        obtain ⟨hp, hm, hr⟩ := h
        subst hp; subst hm; subst hr
        simpa using matchSepAt_eq (c :: cs) m' r' hms
    | none =>
      rw [hms] at h
      cases hf : findSep cs with
      | some q =>
        rw [hf] at h
        obtain ⟨p', m', r'⟩ := q
        simp only [Option.some.injEq, Prod.mk.injEq] at h
        obtain ⟨hp, hm, hr⟩ := h
        subst hp; subst hm; subst hr
        simpa using congrArg (c :: ·) (ih p' m' r' hf)
      | none => rw [hf] at h; cases h

theorem splitKeepF_join : ∀ (f : Nat) (s : List Char), (splitKeepF f s).flatten = s := by
  intro f
  induction f with
  | zero => intro s; simp [splitKeepF]
  | succ f ih =>
    intro s
    simp only [splitKeepF]
    cases hf : findSep s with
    | none => simp
    | some q =>
      obtain ⟨p, m, r⟩ := q
      simp only [List.flatten_cons]
      rw [ih r]
      have := findSep_eq s p m r hf
      simpa using this

theorem splitKeep_join (s : List Char) : (splitKeep s).flatten = s := splitKeepF_join _ _

theorem processBlock_emptyMaps (b : List Char) : processBlock [] [] b = (b, 0, 0) := by
  unfold processBlock
  by_cases h : pyStrip b = []
  · rw [if_pos h]
  · rw [if_neg h]
    by_cases hm : extractMsgid b ≠ []
    · rw [if_pos hm]; rfl
    · rw [if_neg hm]

theorem processContent_emptyMaps (content : List Char) :
    processContent [] [] content = (content, 0, 0) := by
  unfold processContent
  have aux : ∀ ps : List (List Char),
      ps.foldr (fun b acc =>
        let r := processBlock [] [] b
        (r.1 ++ acc.1, r.2.1 + acc.2.1, r.2.2 + acc.2.2)) ([], 0, 0)
      = (ps.flatten, 0, 0) := by
    intro ps
    induction ps with
    | nil => simp
    | cons b bs ih =>
      simp only [List.foldr_cons]
      rw [ih]
      simp [processBlock_emptyMaps, List.flatten_cons]
  rw [aux, splitKeep_join]

/-- C1: running the Updater's content-processing step with both lookup
maps empty returns text byte-identical to the input (and leaves both
counters at zero), so an update of zero entries re-serializes the
catalog unchanged. -/
theorem c1_empty_maps_identity (content : List Char) :
    (processContent [] [] content).1 = content := by
  rw [processContent_emptyMaps]

theorem buildMap_all_falsy : ∀ ts : List TransTask,
    (∀ t ∈ ts, taskTruthy t = false) → buildMap ts = [] := by
  have aux : ∀ (ts : List TransTask) (acc : List (List Char × TransTask)),
      (∀ t ∈ ts, taskTruthy t = false) →
      ts.foldl (fun acc t => if taskTruthy t then (t.msgid, t) :: acc else acc) acc = acc := by
    intro ts
    induction ts with
    | nil => intro acc _; rfl
    | cons t ts ih =>
      intro acc h
      simp only [List.foldl_cons]
      rw [if_neg (by simp [h t (by simp)])]
      exact ih acc (fun t' ht' => h t' (by simp [ht']))
  intro ts h
  exact aux ts [] h

/-- C10: a translation task whose translation field is empty or absent
is never entered into either lookup map, so importing a payload made of
such tasks leaves the catalog text byte-identical and both the updated
and fuzzy-cleared counters at zero. -/
theorem c10_falsy_translation_noop (content : List Char) (entries fuzzies : List TransTask)
    (h1 : ∀ t ∈ entries, taskTruthy t = false)
    (h2 : ∀ t ∈ fuzzies, taskTruthy t = false) :
    updateModel entries fuzzies content = (content, 0, 0) := by
  unfold updateModel
  rw [buildMap_all_falsy entries h1, buildMap_all_falsy fuzzies h2,
    processContent_emptyMaps]

/-- Witness for C10 at a concrete catalog and a payload holding one task
with an empty translation and one with the field absent. -/
theorem c10_falsy_translation_noop_witness :
    (∀ t ∈ [(⟨"a".toList, some [], none, none⟩ : TransTask)], taskTruthy t = false)
    ∧ (∀ t ∈ [(⟨"b".toList, none, none, none⟩ : TransTask)], taskTruthy t = false)
    ∧ updateModel [⟨"a".toList, some [], none, none⟩] [⟨"b".toList, none, none, none⟩]
        ("msgid \"a\"\nmsgstr \"x\"\n\nmsgid \"b\"\nmsgstr \"y\"".toList)
      = ("msgid \"a\"\nmsgstr \"x\"\n\nmsgid \"b\"\nmsgstr \"y\"".toList, 0, 0) :=
  ⟨by decide, by decide,
    c10_falsy_translation_noop _ _ _ (by decide) (by decide)⟩

/-- C3 (code bug): with a singular msgstr directive carrying two quoted
continuation lines, the rewrite discards only the first continuation
line; the second original continuation line survives in the output.
Python stores the full continuation count in `skip_next` but consumes it
as a boolean reset after one line, contradicting the inline comment
"Skip original msgstr continuation lines" and the computation of the
full count. -/
theorem c3_continuation_lines_survive :
    updateBlock ("msgid \"a\"\nmsgstr \"\"\n\"x\"\n\"y\"".toList)
      ⟨"a".toList, some ("z".toList), none, none⟩ false
      = ("msgid \"a\"\nmsgstr \"z\"\n\"y\"".toList, 1, 0) := by decide

/-- C5 counterexample: a msgid present in both lookup maps is treated as
a plain update, not as a fuzzy one.  The fuzzy flag of the block stays,
the plain translation is applied and the fuzzy-cleared counter stays at
zero, whereas the fuzzy treatment would have produced the flag-stripped
block with the fuzzy task's translation. -/
theorem c5_plain_map_wins_cex :
    (processContent [("a".toList, ⟨"a".toList, some ("P".toList), none, none⟩)]
        [("a".toList, ⟨"a".toList, some ("F".toList), none, none⟩)]
        ("#, fuzzy\nmsgid \"a\"\nmsgstr \"x\"".toList)).1
      = "#, fuzzy\nmsgid \"a\"\nmsgstr \"P\"".toList
    ∧ (processContent [("a".toList, ⟨"a".toList, some ("P".toList), none, none⟩)]
        [("a".toList, ⟨"a".toList, some ("F".toList), none, none⟩)]
        ("#, fuzzy\nmsgid \"a\"\nmsgstr \"x\"".toList)).1
      ≠ (updateBlock ("#, fuzzy\nmsgid \"a\"\nmsgstr \"x\"".toList)
          ⟨"a".toList, some ("F".toList), none, none⟩ true).1
    ∧ (processContent [("a".toList, ⟨"a".toList, some ("P".toList), none, none⟩)]
        [("a".toList, ⟨"a".toList, some ("F".toList), none, none⟩)]
        ("#, fuzzy\nmsgid \"a\"\nmsgstr \"x\"".toList)).2.2 = 0 := by
  refine ⟨by decide, by decide, by decide⟩

/-- C5 (amended): a block whose extracted msgid is a key of the plain
translations map is always treated as a plain update, regardless of
whether the fuzzy map also holds that msgid. -/
theorem c5_plain_map_priority (b m : List Char) (t : TransTask)
    (tmap fmap : List (List Char × TransTask))
    (h0 : pyStrip b ≠ []) (h1 : extractMsgid b = m) (h2 : m ≠ [])
    (h3 : lookupA m tmap = some t) :
    processBlock tmap fmap b = updateBlock b t false := by
  unfold processBlock
  rw [if_neg (by simpa using h0)]
  rw [h1]
  rw [if_pos h2, h3]

/-- Witness for C5 at a concrete block with the msgid present in both
maps. -/
theorem c5_plain_map_priority_witness :
    pyStrip ("msgid \"a\"\nmsgstr \"x\"".toList) ≠ []
    ∧ extractMsgid ("msgid \"a\"\nmsgstr \"x\"".toList) = "a".toList
    ∧ ("a".toList : List Char) ≠ []
    ∧ lookupA ("a".toList)
        [("a".toList, (⟨"a".toList, some ("P".toList), none, none⟩ : TransTask))]
      = some ⟨"a".toList, some ("P".toList), none, none⟩
    ∧ processBlock [("a".toList, ⟨"a".toList, some ("P".toList), none, none⟩)]
        [("a".toList, ⟨"a".toList, some ("F".toList), none, none⟩)]
        ("msgid \"a\"\nmsgstr \"x\"".toList)
      = updateBlock ("msgid \"a\"\nmsgstr \"x\"".toList)
          ⟨"a".toList, some ("P".toList), none, none⟩ false :=
  ⟨by decide, by decide, by decide, by decide,
    c5_plain_map_priority ("msgid \"a\"\nmsgstr \"x\"".toList) ("a".toList)
      ⟨"a".toList, some ("P".toList), none, none⟩
      [("a".toList, ⟨"a".toList, some ("P".toList), none, none⟩)]
      [("a".toList, ⟨"a".toList, some ("F".toList), none, none⟩)]
      (by decide) (by decide) (by decide) (by decide)⟩

/-- C8 counterexample: with the empty exclusion set (the degraded state
when the exclusions file is absent) a short all-uppercase msgid is NOT
excluded, because `is_excluded` returns false immediately on an empty
exclusion list. -/
theorem c8_empty_exclusions_cex :
    isExcluded ("ABC".toList) [] = false := by decide

/-- C8 (amended): for every NON-empty exclusion set, a msgid of length
at most 5 that satisfies Python `isupper` is excluded. -/
theorem c8_short_upper_excluded (msgid : List Char) (excl : List (List Char))
    (hne : excl ≠ []) (hlen : msgid.length ≤ 5) (hup : pyIsUpper msgid = true) :
    isExcluded msgid excl = true := by
  unfold isExcluded
  rw [if_neg hne]
  by_cases hmem : msgid ∈ excl
  · rw [if_pos hmem]
  · rw [if_neg hmem]
    by_cases hw : (!(pyFindWords msgid).isEmpty
        && (pyFindWords msgid).all (fun w => pyUpper w ∈ excl.map pyUpper)) = true
    · rw [if_pos hw]
    · rw [if_neg hw]
      rw [if_pos (by simp [hup]; omega)]

/-- Witness for C8 at a concrete short uppercase msgid and a nonempty
exclusion set that does not mention it. -/
theorem c8_short_upper_excluded_witness :
    (["cfg".toList] : List (List Char)) ≠ []
    ∧ ("HTTP".toList).length ≤ 5
    ∧ pyIsUpper ("HTTP".toList) = true
    ∧ isExcluded ("HTTP".toList) ["cfg".toList] = true :=
  ⟨by decide, by decide, by decide,
    c8_short_upper_excluded _ _ (by decide) (by decide) (by decide)⟩

theorem selectLoop_untranslated (excl : List (List Char)) :
    ∀ es : List PEntry, (selectLoop excl es).1 = es.filter (untrSel excl) := by
  intro es
  induction es with
  | nil => rfl
  | cons e rest ih =>
    simp only [selectLoop, List.filter_cons]
    cases hf : e.is_fuzzy with
    | true =>
      cases hx : isExcluded e.msgid excl with
      | true => simp [hf, hx, untrSel, ih]
      | false => simp [hf, hx, untrSel, ih]
    | false =>
      cases hu : e.is_untranslated with
      | true =>
        cases hx : isExcluded e.msgid excl with
        | true => simp [hf, hu, hx, untrSel, ih]
        | false => simp [hf, hu, hx, untrSel, ih]
      | false => simp [hf, hu, untrSel, ih]

theorem selectLoop_fuzzy (excl : List (List Char)) :
    ∀ es : List PEntry, (selectLoop excl es).2.1 = es.filter (fuzzySel excl) := by
  intro es
  induction es with
  | nil => rfl
  | cons e rest ih =>
    simp only [selectLoop, List.filter_cons]
    cases hf : e.is_fuzzy with
    | true =>
      cases hx : isExcluded e.msgid excl with
      | true => simp [hf, hx, fuzzySel, ih]
      | false => simp [hf, hx, fuzzySel, ih]
    | false =>
      cases hu : e.is_untranslated with
      | true =>
        cases hx : isExcluded e.msgid excl with
        | true => simp [hf, hu, hx, fuzzySel, ih]
        | false => simp [hf, hu, hx, fuzzySel, ih]
      | false => simp [hf, hu, fuzzySel, ih]

/-- C9 counterexample: an entry that is both fuzzy and untranslated goes
to the fuzzy list, so with a limit given the untranslated list before
truncation is empty, yet the reported total counts the entry: the total
does not equal the pre-truncation length of the untranslated list. -/
theorem c9_total_counts_fuzzy_cex :
    (extractMain [⟨[], [], ["fuzzy".toList], "a".toList, [], [], [], true, true⟩]
        [] (some 5)).total_untranslated = 1
    ∧ (selectLoop [] [⟨[], [], ["fuzzy".toList], "a".toList, [], [], [], true, true⟩]).1.length
        = 0 := by
  refine ⟨by decide, by decide⟩

/-- C9 (amended): with a positive limit, the untranslated and fuzzy task
lists are each independently truncated to their first N entries in
catalog order, and the reported total equals the number of non-excluded
untranslated-classified entries over the whole catalog — including
entries that are also fuzzy, so it can exceed the untranslated list's
pre-truncation length. -/
theorem c9_limit_and_total (entries : List PEntry) (excl : List (List Char))
    (n : Nat) (hn : 0 < n) :
    (extractMain entries excl (some n)).untranslated
      = (entries.filter (untrSel excl)).take n
    ∧ (extractMain entries excl (some n)).fuzzy
      = (entries.filter (fuzzySel excl)).take n
    ∧ (extractMain entries excl (some n)).total_untranslated
      = (entries.filter (untrTotal excl)).length := by
  refine ⟨?_, ?_, ?_⟩ <;>
    simp [extractMain, hn, selectLoop_untranslated, selectLoop_fuzzy]

/-- Witness for C9: two entries, one plainly untranslated and one both
fuzzy and untranslated, with limit 1. -/
theorem c9_limit_and_total_witness :
    0 < 1
    ∧ ((extractMain [⟨[], [], [], "a".toList, [], [], [], false, true⟩,
          ⟨[], [], ["fuzzy".toList], "b".toList, [], [], [], true, true⟩] [] (some 1)).untranslated
        = (([⟨[], [], [], "a".toList, [], [], [], false, true⟩,
          ⟨[], [], ["fuzzy".toList], "b".toList, [], [], [], true, true⟩] : List PEntry).filter
            (untrSel [])).take 1
      ∧ (extractMain [⟨[], [], [], "a".toList, [], [], [], false, true⟩,
          ⟨[], [], ["fuzzy".toList], "b".toList, [], [], [], true, true⟩] [] (some 1)).fuzzy
        = (([⟨[], [], [], "a".toList, [], [], [], false, true⟩,
          ⟨[], [], ["fuzzy".toList], "b".toList, [], [], [], true, true⟩] : List PEntry).filter
            (fuzzySel [])).take 1
      ∧ (extractMain [⟨[], [], [], "a".toList, [], [], [], false, true⟩,
          ⟨[], [], ["fuzzy".toList], "b".toList, [], [], [], true, true⟩] [] (some 1)).total_untranslated
        = (([⟨[], [], [], "a".toList, [], [], [], false, true⟩,
          ⟨[], [], ["fuzzy".toList], "b".toList, [], [], [], true, true⟩] : List PEntry).filter
            (untrTotal [])).length) :=
  ⟨by decide, c9_limit_and_total _ _ _ (by decide)⟩

theorem classifyE_msgid (e : PEntry) : (classifyE e).msgid = e.msgid := by
  unfold classifyE
  by_cases h : e.msgid ≠ []
  · rw [if_pos h]
    by_cases hp : e.msgid_plural ≠ []
    · rw [if_pos hp]
    · rw [if_neg hp]
  · rw [if_neg h]

theorem classifyE_msgid_plural (e : PEntry) :
    (classifyE e).msgid_plural = e.msgid_plural := by
  unfold classifyE
  by_cases h : e.msgid ≠ []
  · rw [if_pos h]
    by_cases hp : e.msgid_plural ≠ []
    · rw [if_pos hp]
    · rw [if_neg hp]
  · rw [if_neg h]

theorem classifyE_msgstr (e : PEntry) : (classifyE e).msgstr = e.msgstr := by
  unfold classifyE
  by_cases h : e.msgid ≠ []
  · rw [if_pos h]
    by_cases hp : e.msgid_plural ≠ []
    · rw [if_pos hp]
    · rw [if_neg hp]
  · rw [if_neg h]

/-- C7 counterexample: the exporter's classification has no
source-identity-locale exemption at all — a block whose msgstr equals
its msgid is marked untranslated there for every catalog, including one
belonging to the en_EN locale, while the Analyzer's `check_entry` does
exempt en_EN on the same data. -/
theorem c7_exporter_no_exemption_cex :
    (parseBlockE ("msgid \"Hello\"\nmsgstr \"Hello\"".toList)).is_untranslated = true
    ∧ checkEntry ⟨"Hello".toList, [], "Hello".toList, [], false⟩ [] ("en_EN".toList) = [] := by
  refine ⟨by decide, by decide⟩

/-- C7 (amended): the source-identity exemption holds in the Analyzer's
classification — a non-obsolete, non-excluded singular entry whose
msgstr equals its msgid is flagged untranslated exactly for locales
other than en_EN — but the exporter's classification applies no such
exemption: it marks every parsed singular block with msgstr equal to
msgid as untranslated, with no locale in sight. -/
theorem c7_source_identity_exemption :
    (∀ (e : CEntry) (excl : List (List Char)) (lang : List Char),
      e.obsolete = false → e.msgid ≠ [] → isExcluded e.msgid excl = false →
      e.msgid_plural = [] → e.msgstr = e.msgid →
      checkEntry e excl lang =
        if lang = "en_EN".toList then []
        else [("untranslated".toList, e.msgid,
          "msgstr equals msgid (not translated)".toList)])
    ∧ (∀ b : List Char,
      (parseBlockE b).msgid ≠ [] → (parseBlockE b).msgid_plural = [] →
      (parseBlockE b).msgstr = (parseBlockE b).msgid →
      (parseBlockE b).is_untranslated = true) := by
  constructor
  · intro e excl lang hobs hmsgid hexcl hplural heq
    unfold checkEntry
    rw [if_neg (by simp [hobs, hmsgid])]
    rw [if_neg (by simp [hexcl])]
    rw [if_neg (by simpa using hplural)]
    rw [if_neg (by rw [heq]; simpa using hmsgid)]
    by_cases hl : lang = "en_EN".toList
    · simp [hl]
    · simp [hl, heq]
  · intro b hmsgid hplural heq
    unfold parseBlockE at *
    set e := parseGoE initPEntry (splitNL (pyStrip b)) with he
    rw [classifyE_msgid] at hmsgid heq
    rw [classifyE_msgid_plural] at hplural
    rw [classifyE_msgstr] at heq
    unfold classifyE
    rw [if_pos (by simpa using hmsgid)]
    rw [if_neg (by simpa using hplural)]
    simp [heq]

/-- Witness for C7: a concrete singular entry with msgstr equal to
msgid, checked for a non-exempt locale and for en_EN, and a concrete
block classified by the exporter. -/
theorem c7_source_identity_exemption_witness :
    checkEntry ⟨"Hello".toList, [], "Hello".toList, [], false⟩ [] ("fr_FR".toList)
      = [("untranslated".toList, "Hello".toList,
          "msgstr equals msgid (not translated)".toList)]
    ∧ checkEntry ⟨"Hello".toList, [], "Hello".toList, [], false⟩ [] ("en_EN".toList) = []
    ∧ (parseBlockE ("msgid \"Hi\"\nmsgstr \"Hi\"".toList)).is_untranslated = true := by
  refine ⟨?_, ?_, ?_⟩
  · have h := c7_source_identity_exemption.1 ⟨"Hello".toList, [], "Hello".toList, [], false⟩
      [] ("fr_FR".toList) (by decide) (by decide) (by decide) (by decide) (by decide)
    rw [h]
    decide
  · have h := c7_source_identity_exemption.1 ⟨"Hello".toList, [], "Hello".toList, [], false⟩
      [] ("en_EN".toList) (by decide) (by decide) (by decide) (by decide) (by decide)
    rw [h]
    decide
  · exact c7_source_identity_exemption.2 ("msgid \"Hi\"\nmsgstr \"Hi\"".toList)
      (by decide) (by decide) (by decide)

theorem startsWith_pair_elim (a b : Char) (s : List Char)
    (h : startsWith [a, b] s = true) : ∃ tl, s = a :: b :: tl := by
  cases s with
  | nil => simp [startsWith] at h
  | cons c cs =>
    cases cs with
    | nil => simp [startsWith] at h
    | cons d ds =>
      simp only [startsWith, Bool.and_eq_true, beq_iff_eq] at h
      exact ⟨ds, by rw [h.1, h.2.1]⟩

theorem flagLine_not_msgstr (l : List Char)
    (hf : startsWith ("#,".toList) (pyStrip l) = true) :
    startsWith ("msgstr \"".toList) (pyStrip l) = false
    ∧ parseMsgstrIdx (pyStrip l) = none := by
  obtain ⟨tl, htl⟩ := startsWith_pair_elim '#' ',' (pyStrip l) hf
  constructor
  · rw [htl]; simp [startsWith]
  · unfold parseMsgstrIdx msgstrIdxParts
    rw [htl]
    rw [if_neg (by simp [startsWith])]
    rfl

/-- C6 counterexample: when a block is updated from the fuzzy map, the
fuzzy-cleared counter is incremented although the flags line carries no
`fuzzy` token at all — the branch tests for `fuzzy` as a substring of
the line, and `fuzzyish` contains it.  The flags line is re-emitted with
its token list unchanged, so the counter is incremented without any
fuzzy token having been removed. -/
theorem c6_substring_not_token_cex :
    updateBlock ("#, fuzzyish\nmsgid \"a\"\nmsgstr \"x\"".toList)
      ⟨"a".toList, some ("z".toList), none, none⟩ true
      = ("#, fuzzyish\nmsgid \"a\"\nmsgstr \"z\"".toList, 1, 1)
    ∧ ("fuzzy".toList ∉
        (splitOnCh ',' (("#, fuzzyish".toList).drop 2)).map pyStrip) := by
  refine ⟨by decide, by decide⟩

/-- C6 (amended): when a block is updated from the fuzzy map, a flags
comment line is rewritten exactly when it contains `fuzzy` as a
SUBSTRING (not necessarily as a token): all tokens equal to `fuzzy` are
removed from the comma-split token list, the remaining tokens are
re-joined with normalized comma-space separation, the line is dropped
entirely when no tokens remain, and the fuzzy-cleared counter is
incremented precisely in the substring case; a flags line without the
substring passes through unchanged with no increment. -/
theorem c6_fuzzy_flag_clearing (t : TransTask) (l : List Char)
    (rest : List (List Char))
    (hf : startsWith ("#,".toList) (pyStrip l) = true) :
    (containsSub ("fuzzy".toList) l = true →
      (updateGo t true 0 (l :: rest)).lines =
        (if ((splitOnCh ',' (l.drop 2)).map pyStrip).filter
              (fun f => f ≠ "fuzzy".toList) = []
          then []
          else [("#, ".toList) ++ joinWith (", ".toList)
            (((splitOnCh ',' (l.drop 2)).map pyStrip).filter
              (fun f => f ≠ "fuzzy".toList))])
        ++ (updateGo t true 0 rest).lines
      ∧ (updateGo t true 0 (l :: rest)).fz = (updateGo t true 0 rest).fz + 1
      ∧ (updateGo t true 0 (l :: rest)).upd = (updateGo t true 0 rest).upd)
    ∧ (containsSub ("fuzzy".toList) l = false →
      (updateGo t true 0 (l :: rest)).lines = l :: (updateGo t true 0 rest).lines
      ∧ (updateGo t true 0 (l :: rest)).fz = (updateGo t true 0 rest).fz
      ∧ (updateGo t true 0 (l :: rest)).upd = (updateGo t true 0 rest).upd) := by
  have hf' : startsWith ['#', ','] (pyStrip l) = true := by simpa using hf
  have hnm := flagLine_not_msgstr l hf
  have hnm1 : startsWith ['m', 's', 'g', 's', 't', 'r', ' ', '\"'] (pyStrip l) = false := by
    simpa using hnm.1
  have hnm2 : parseMsgstrIdx (pyStrip l) = none := hnm.2
  constructor
  · intro hc
    have hc' : containsSub ['f', 'u', 'z', 'z', 'y'] l = true := by simpa using hc
    simp only [updateGo]
    rw [if_pos (by simp [hf', hc'])]
    simp
  · intro hc
    have hc' : containsSub ['f', 'u', 'z', 'z', 'y'] l = false := by simpa using hc
    simp only [updateGo]
    rw [if_neg (by simp [hc'])]
    rw [if_neg (by simp [hnm1])]
    rw [hnm2]
    cases htr : t.translations <;> simp

/-- Witness for C6 at a flags line holding a fuzzy token next to a
c-format token, and at a flags line without the substring. -/
theorem c6_fuzzy_flag_clearing_witness :
    (updateGo ⟨"a".toList, some ("z".toList), none, none⟩ true 0
        ["#, fuzzy, c-format".toList]).lines = ["#, c-format".toList]
    ∧ (updateGo ⟨"a".toList, some ("z".toList), none, none⟩ true 0
        ["#, fuzzy, c-format".toList]).fz = 1
    ∧ (updateGo ⟨"a".toList, some ("z".toList), none, none⟩ true 0
        ["#, c-format".toList]).lines = ["#, c-format".toList] := by
  have h1 := (c6_fuzzy_flag_clearing ⟨"a".toList, some ("z".toList), none, none⟩
    ("#, fuzzy, c-format".toList) [] (by decide)).1 (by decide)
  have h2 := (c6_fuzzy_flag_clearing ⟨"a".toList, some ("z".toList), none, none⟩
    ("#, c-format".toList) [] (by decide)).2 (by decide)
  refine ⟨?_, ?_, ?_⟩
  · rw [h1.1]; decide
  · rw [h1.2.1]; decide
  · rw [h2.1]; decide

theorem startsWith_single_iff (a : Char) (s : List Char) :
    startsWith [a] s = true ↔ s.head? = some a := by
  cases s with
  | nil => simp [startsWith]
  | cons b bs =>
    simp only [startsWith, startsWith_nil_left, Bool.and_true, beq_iff_eq,
      List.head?_cons, Option.some.injEq]
    exact eq_comm

theorem pyReplace_two_cons (p q : Char) (rep : List Char) (a : Char) (s : List Char) :
    pyReplace [p, q] rep (a :: s) =
      if p = a ∧ s.head? = some q then rep ++ pyReplace [p, q] rep s.tail
      else a :: pyReplace [p, q] rep s := by
  rw [pyReplace_cons]
  by_cases h : p = a ∧ s.head? = some q
  · rw [if_pos h]
    rw [if_pos]
    · have : (a :: s).drop [p, q].length = s.tail := by
        simp [List.drop_succ_cons, List.drop_one]
      rw [this]
    · simp only [List.isEmpty, Bool.not_false, Bool.true_and, startsWith, beq_iff_eq]
      rw [h.1]
      simp [(startsWith_single_iff q s).2 h.2]
  · rw [if_neg h]
    rw [if_neg]
    intro hcond
    simp only [List.isEmpty, Bool.not_false, Bool.true_and, startsWith, beq_iff_eq,
      Bool.and_eq_true] at hcond
    exact h ⟨hcond.1, (startsWith_single_iff q s).1 hcond.2⟩

theorem mapConcat_tok_ne_nil (c : Char) (s : List Char) :
    mapConcat tok (c :: s) ≠ [] := by
  simp only [mapConcat, tok]
  by_cases h1 : c = '\\' <;> by_cases h2 : c = '"' <;> by_cases h3 : c = '\t' <;>
    simp [h1, h2, h3]

theorem tok_append_head_ne (c x : Char) (hx : x ≠ '\\') (hc : c ≠ x)
    (rest : List Char) : (tok c ++ rest).head? ≠ some x := by
  unfold tok
  by_cases h1 : c = '\\'
  · rw [if_pos h1]
    intro h
    injection h with h
    exact hx h.symm
  · rw [if_neg h1]
    by_cases h2 : c = '"'
    · rw [if_pos h2]
      intro h
      injection h with h
      exact hx h.symm
    · rw [if_neg h2]
      by_cases h3 : c = '\t'
      · rw [if_pos h3]
        intro h
        injection h with h
        exact hx h.symm
      · rw [if_neg h3]
        intro h
        injection h with h
        exact hc h

theorem tok2_append_head_ne (c x : Char) (hx : x ≠ '\\') (hc : c ≠ x)
    (rest : List Char) : (tok2 c ++ rest).head? ≠ some x := by
  unfold tok2
  by_cases h1 : c = '\\'
  · rw [if_pos h1]
    intro h
    injection h with h
    exact hx h.symm
  · rw [if_neg h1]
    by_cases h2 : c = '"'
    · rw [if_pos h2]
      intro h
      injection h with h
      exact hx h.symm
    · rw [if_neg h2]
      intro h
      injection h with h
      exact hc h

theorem goodStr_tail (c : Char) (s : List Char) (hg : goodStr (c :: s) = true) :
    goodStr s = true := by
  unfold goodStr at hg ⊢
  simp only [Bool.and_eq_true, Bool.not_eq_true'] at hg ⊢
  unfold containsSub at hg
  constructor
  · have := hg.1
    simp only [Bool.or_eq_false_iff] at this
    exact this.2
  · have := hg.2
    simp only [Bool.or_eq_false_iff] at this
    exact this.2

theorem goodStr_bs_head (c' : Char) (s : List Char)
    (hg : goodStr ('\\' :: c' :: s) = true) : c' ≠ 'n' ∧ c' ≠ 't' := by
  unfold goodStr containsSub at hg
  simp only [Bool.and_eq_true, Bool.not_eq_true', Bool.or_eq_false_iff] at hg
  constructor
  · intro h
    subst h
    have := hg.1.1
    simp [startsWith, startsWith_nil_left] at this
  · intro h
    subst h
    have := hg.2.1
    simp [startsWith, startsWith_nil_left] at this

theorem mapConcat_append (f : Char → List Char) :
    ∀ a b : List Char, mapConcat f (a ++ b) = mapConcat f a ++ mapConcat f b := by
  intro a
  induction a with
  | nil => intro b; simp [mapConcat]
  | cons c cs ih => intro b; simp [mapConcat, ih, List.append_assoc]

theorem mapConcat_comp (f g : Char → List Char) :
    ∀ s, mapConcat g (mapConcat f s) = mapConcat (fun c => mapConcat g (f c)) s := by
  intro s
  induction s with
  | nil => rfl
  | cons c cs ih => simp [mapConcat, mapConcat_append, ih]

theorem mapConcat_congr (f g : Char → List Char) (h : ∀ c, f c = g c) :
    ∀ s, mapConcat f s = mapConcat g s := by
  intro s
  induction s with
  | nil => rfl
  | cons c cs ih => simp [mapConcat, h c, ih]

theorem escape_eq_mapConcat (s : List Char) : escape s = mapConcat tok s := by
  unfold escape
  rw [pyReplace_single, pyReplace_single, pyReplace_single]
  rw [mapConcat_comp, mapConcat_comp]
  apply mapConcat_congr
  intro c
  by_cases h1 : c = '\\'
  · subst h1; decide
  · by_cases h2 : c = '"'
    · subst h2; decide
    · by_cases h3 : c = '\t'
      · subst h3; decide
      · simp [mapConcat, tok, h1, h2, h3]

theorem tok2_append_head_ne_quote (c : Char) (rest : List Char) :
    (tok2 c ++ rest).head? ≠ some '"' := by
  unfold tok2
  by_cases h1 : c = '\\'
  · rw [if_pos h1]
    intro h
    injection h with h
    exact absurd h (by decide)
  · rw [if_neg h1]
    by_cases h2 : c = '"'
    · rw [if_pos h2]
      intro h
      injection h with h
      exact absurd h (by decide)
    · rw [if_neg h2]
      intro h
      injection h with h
      exact h2 h

theorem tok3_append_head_ne_bs (c : Char) (hc : c ≠ '\\') (rest : List Char) :
    (tok3 c ++ rest).head? ≠ some '\\' := by
  unfold tok3
  rw [if_neg hc]
  intro h
  injection h with h
  exact hc h

theorem u1_gen : ∀ s tl : List Char, goodStr s = true → tl.head? ≠ some 'n' →
    pyReplace ['\\', 'n'] ['\n'] (mapConcat tok s ++ tl)
      = mapConcat tok s ++ pyReplace ['\\', 'n'] ['\n'] tl := by
  intro s
  induction s with
  | nil => intro tl _ _; simp [mapConcat]
  | cons c s' ih =>
    intro tl hg ht
    have hg' : goodStr s' = true := goodStr_tail c s' hg
    by_cases h1 : c = '\\'
    · subst h1
      have hhead : (mapConcat tok s' ++ tl).head? ≠ some 'n' := by
        cases s' with
        | nil => simpa [mapConcat] using ht
        | cons c' s'' =>
          have hcn := (goodStr_bs_head c' s'' hg).1
          have hsh : mapConcat tok (c' :: s'') ++ tl
              = tok c' ++ (mapConcat tok s'' ++ tl) := by
            simp [mapConcat, List.append_assoc]
          rw [hsh]
          exact tok_append_head_ne c' 'n' (by decide) hcn _
      simp only [mapConcat, tok, if_pos rfl, if_true, List.cons_append]
      rw [pyReplace_two_cons]
      rw [if_neg (by rintro ⟨-, hh⟩; simp at hh)]
      rw [pyReplace_two_cons]
      rw [if_neg (by rintro ⟨-, hh⟩; exact hhead hh)]
      simp only [List.nil_append]
      rw [ih tl hg' ht]
    · by_cases h2 : c = '"'
      · subst h2
        simp only [mapConcat, tok, if_neg (by decide : ¬('"' = '\\')), if_pos rfl,
          if_true, List.cons_append]
        rw [pyReplace_two_cons]
        rw [if_neg (by rintro ⟨-, hh⟩; simp at hh)]
        rw [pyReplace_two_cons]
        rw [if_neg (by rintro ⟨hh, -⟩; exact absurd hh (by decide))]
        simp only [List.nil_append]
        rw [ih tl hg' ht]
      · by_cases h3 : c = '\t'
        · subst h3
          simp only [mapConcat, tok, if_neg (by decide : ¬('\t' = '\\')),
            if_neg (by decide : ¬('\t' = '"')), if_pos rfl, if_true, List.cons_append]
          rw [pyReplace_two_cons]
          rw [if_neg (by rintro ⟨-, hh⟩; simp at hh)]
          rw [pyReplace_two_cons]
          rw [if_neg (by rintro ⟨hh, -⟩; exact absurd hh (by decide))]
          simp only [List.nil_append]
          rw [ih tl hg' ht]
        · simp only [mapConcat, tok, if_neg h1, if_neg h2, if_neg h3,
            List.cons_append, List.singleton_append]
          rw [pyReplace_two_cons]
          rw [if_neg (by rintro ⟨hh, -⟩; exact h1 hh.symm)]
          simp only [List.nil_append]
          rw [ih tl hg' ht]

theorem u2_gen : ∀ s tl : List Char, goodStr s = true → tl.head? ≠ some 't' →
    pyReplace ['\\', 't'] ['\t'] (mapConcat tok s ++ tl)
      = mapConcat tok2 s ++ pyReplace ['\\', 't'] ['\t'] tl := by
  intro s
  induction s with
  | nil => intro tl _ _; simp [mapConcat]
  | cons c s' ih =>
    intro tl hg ht
    have hg' : goodStr s' = true := goodStr_tail c s' hg
    by_cases h1 : c = '\\'
    · subst h1
      have hhead : (mapConcat tok s' ++ tl).head? ≠ some 't' := by
        cases s' with
        | nil => simpa [mapConcat] using ht
        | cons c' s'' =>
          have hcn := (goodStr_bs_head c' s'' hg).2
          have hsh : mapConcat tok (c' :: s'') ++ tl
              = tok c' ++ (mapConcat tok s'' ++ tl) := by
            simp [mapConcat, List.append_assoc]
          rw [hsh]
          exact tok_append_head_ne c' 't' (by decide) hcn _
      simp only [mapConcat, tok, tok2, if_pos rfl, if_true, List.cons_append]
      rw [pyReplace_two_cons]
      rw [if_neg (by rintro ⟨-, hh⟩; simp at hh)]
      rw [pyReplace_two_cons]
      rw [if_neg (by rintro ⟨-, hh⟩; exact hhead hh)]
      simp only [List.nil_append]
      rw [ih tl hg' ht]
    · by_cases h2 : c = '"'
      · subst h2
        simp only [mapConcat, tok, tok2, if_neg (by decide : ¬('"' = '\\')),
          if_pos rfl, if_true, List.cons_append]
        rw [pyReplace_two_cons]
        rw [if_neg (by rintro ⟨-, hh⟩; simp at hh)]
        rw [pyReplace_two_cons]
        rw [if_neg (by rintro ⟨hh, -⟩; exact absurd hh (by decide))]
        simp only [List.nil_append]
        rw [ih tl hg' ht]
      · by_cases h3 : c = '\t'
        · subst h3
          simp only [mapConcat, tok, tok2, if_neg (by decide : ¬('\t' = '\\')),
            if_neg (by decide : ¬('\t' = '"')), if_pos rfl, if_true, List.cons_append]
          rw [pyReplace_two_cons]
          rw [if_pos ⟨rfl, rfl⟩]
          simp only [List.tail_cons]
          simp only [List.nil_append]
          rw [ih tl hg' ht]
          simp
        · simp only [mapConcat, tok, tok2, if_neg h1, if_neg h2, if_neg h3,
            List.cons_append, List.singleton_append]
          rw [pyReplace_two_cons]
          rw [if_neg (by rintro ⟨hh, -⟩; exact h1 hh.symm)]
          simp only [List.nil_append]
          rw [ih tl hg' ht]

theorem u3_gen : ∀ s tl : List Char, tl.head? ≠ some '"' →
    pyReplace ['\\', '"'] ['"'] (mapConcat tok2 s ++ tl)
      = mapConcat tok3 s ++ pyReplace ['\\', '"'] ['"'] tl := by
  intro s
  induction s with
  | nil => intro tl _; simp [mapConcat]
  | cons c s' ih =>
    intro tl ht
    by_cases h1 : c = '\\'
    · subst h1
      have hhead : (mapConcat tok2 s' ++ tl).head? ≠ some '"' := by
        cases s' with
        | nil => simpa [mapConcat] using ht
        | cons c' s'' =>
          have hsh : mapConcat tok2 (c' :: s'') ++ tl
              = tok2 c' ++ (mapConcat tok2 s'' ++ tl) := by
            simp [mapConcat, List.append_assoc]
          rw [hsh]
          exact tok2_append_head_ne_quote c' _
      simp only [mapConcat, tok2, tok3, if_pos rfl, if_true, List.cons_append]
      rw [pyReplace_two_cons]
      rw [if_neg (by rintro ⟨-, hh⟩; simp at hh)]
      rw [pyReplace_two_cons]
      rw [if_neg (by rintro ⟨-, hh⟩; exact hhead hh)]
      simp only [List.nil_append]
      rw [ih tl ht]
    · by_cases h2 : c = '"'
      · subst h2
        simp only [mapConcat, tok2, tok3, if_neg (by decide : ¬('"' = '\\')),
          if_pos rfl, if_true, List.cons_append]
        rw [pyReplace_two_cons]
        rw [if_pos ⟨rfl, rfl⟩]
        simp only [List.tail_cons]
        simp only [List.nil_append]
        rw [ih tl ht]
        simp
      · simp only [mapConcat, tok2, tok3, if_neg h1, if_neg h2,
          List.cons_append, List.singleton_append]
        rw [pyReplace_two_cons]
        rw [if_neg (by rintro ⟨hh, -⟩; exact h1 hh.symm)]
        simp only [List.nil_append]
        rw [ih tl ht]

theorem u4_gen : ∀ s tl : List Char,
    pyReplace ['\\', '\\'] ['\\'] (mapConcat tok3 s ++ tl)
      = s ++ pyReplace ['\\', '\\'] ['\\'] tl := by
  intro s
  induction s with
  | nil => intro tl; simp [mapConcat]
  | cons c s' ih =>
    intro tl
    by_cases h1 : c = '\\'
    · subst h1
      simp only [mapConcat, tok3, if_pos rfl, if_true, List.cons_append]
      rw [pyReplace_two_cons]
      rw [if_pos ⟨rfl, rfl⟩]
      simp only [List.tail_cons]
      simp only [List.nil_append]
      rw [ih tl]
      simp
    · simp only [mapConcat, tok3, if_neg h1, List.cons_append, List.singleton_append]
      rw [pyReplace_two_cons]
      rw [if_neg (by rintro ⟨hh, -⟩; exact h1 hh.symm)]
      simp only [List.nil_append]
      rw [ih tl]

theorem unescape_tok (s : List Char) (hg : goodStr s = true) :
    unescape (mapConcat tok s) = s := by
  unfold unescape
  have e1 : pyReplace ['\\', 'n'] ['\n'] (mapConcat tok s) = mapConcat tok s := by
    simpa [pyReplace_nil] using u1_gen s [] hg (by simp)
  rw [e1]
  have e2 : pyReplace ['\\', 't'] ['\t'] (mapConcat tok s) = mapConcat tok2 s := by
    simpa [pyReplace_nil] using u2_gen s [] hg (by simp)
  rw [e2]
  have e3 : pyReplace ['\\', '"'] ['"'] (mapConcat tok2 s) = mapConcat tok3 s := by
    simpa [pyReplace_nil] using u3_gen s [] (by simp)
  rw [e3]
  simpa [pyReplace_nil] using u4_gen s []

theorem unescape_marker (s : List Char) (hg : goodStr s = true) :
    unescape (mapConcat tok s ++ ['\\', 'n']) = s ++ ['\n'] := by
  unfold unescape
  rw [u1_gen s ['\\', 'n'] hg (by decide)]
  rw [(by decide : pyReplace ['\\', 'n'] ['\n'] ['\\', 'n'] = ['\n'])]
  rw [u2_gen s ['\n'] hg (by decide)]
  rw [(by decide : pyReplace ['\\', 't'] ['\t'] ['\n'] = ['\n'])]
  rw [u3_gen s ['\n'] (by decide)]
  rw [(by decide : pyReplace ['\\', '"'] ['"'] ['\n'] = ['\n'])]
  rw [u4_gen s ['\n']]
  rw [(by decide : pyReplace ['\\', '\\'] ['\\'] ['\n'] = ['\n'])]

theorem splitNL_cons_nl (s : List Char) : splitNL ('\n' :: s) = [] :: splitNL s := by
  simp [splitNL, splitOnCh]

theorem splitNL_ne_nil : ∀ s : List Char, splitNL s ≠ [] := by
  intro s
  cases s with
  | nil => simp [splitNL, splitOnCh]
  | cons c cs =>
    simp only [splitNL, splitOnCh]
    by_cases h : c = '\n'
    · simp [h]
    · rw [if_neg h]
      cases hr : splitOnCh '\n' cs <;> simp

theorem splitNL_cons_struct (s : List Char) :
    ∃ hh tt, splitNL s = hh :: tt := by
  cases hsp : splitNL s with
  | nil => exact absurd hsp (splitNL_ne_nil s)
  | cons a b => exact ⟨a, b, rfl⟩

theorem splitNL_cons_ne (c : Char) (s : List Char) (hc : ¬ c = '\n')
    (hh : List Char) (tt : List (List Char)) (h : splitNL s = hh :: tt) :
    splitNL (c :: s) = (c :: hh) :: tt := by
  simp only [splitNL, splitOnCh] at h ⊢
  rw [if_neg hc, h]

theorem splitNL_two_cons (a b : Char) (ha : ¬ a = '\n') (hb : ¬ b = '\n')
    (s : List Char) (hh : List Char) (tt : List (List Char))
    (h : splitNL s = hh :: tt) :
    splitNL (a :: b :: s) = (a :: b :: hh) :: tt :=
  splitNL_cons_ne a (b :: s) ha (b :: hh) tt (splitNL_cons_ne b s hb hh tt h)

theorem splitNL_mapConcat : ∀ s : List Char,
    splitNL (mapConcat tok s) = (splitNL s).map (fun seg => mapConcat tok seg) := by
  intro s
  induction s with
  | nil => simp [mapConcat, splitNL, splitOnCh]
  | cons c s' ih =>
    obtain ⟨hh, tt, hsp⟩ := splitNL_cons_struct s'
    have hsp2 : splitNL (mapConcat tok s') = mapConcat tok hh :: tt.map
        (fun seg => mapConcat tok seg) := by
      rw [ih, hsp]; rfl
    by_cases h1 : c = '\n'
    · subst h1
      have htk : mapConcat tok ('\n' :: s') = '\n' :: mapConcat tok s' := by
        have : tok '\n' = ['\n'] := by decide
        simp [mapConcat, this]
      rw [htk, splitNL_cons_nl, splitNL_cons_nl, ih]
      simp [mapConcat]
    · by_cases h2 : c = '\\'
      · subst h2
        have htk : mapConcat tok ('\\' :: s') = '\\' :: '\\' :: mapConcat tok s' := by
          have : tok '\\' = ['\\', '\\'] := by decide
          simp [mapConcat, this]
        rw [htk]
        rw [splitNL_two_cons '\\' '\\' (by decide) (by decide) _ _ _ hsp2]
        rw [splitNL_cons_ne '\\' s' h1 hh tt hsp]
        have : tok '\\' = ['\\', '\\'] := by decide
        simp [mapConcat, this]
      · by_cases h3 : c = '"'
        · subst h3
          have htk : mapConcat tok ('"' :: s') = '\\' :: '"' :: mapConcat tok s' := by
            have : tok '"' = ['\\', '"'] := by decide
            simp [mapConcat, this]
          rw [htk]
          rw [splitNL_two_cons '\\' '"' (by decide) (by decide) _ _ _ hsp2]
          rw [splitNL_cons_ne '"' s' h1 hh tt hsp]
          have : tok '"' = ['\\', '"'] := by decide
          simp [mapConcat, this]
        · by_cases h4 : c = '\t'
          · subst h4
            have htk : mapConcat tok ('\t' :: s') = '\\' :: 't' :: mapConcat tok s' := by
              have : tok '\t' = ['\\', 't'] := by decide
              simp [mapConcat, this]
            rw [htk]
            rw [splitNL_two_cons '\\' 't' (by decide) (by decide) _ _ _ hsp2]
            rw [splitNL_cons_ne '\t' s' h1 hh tt hsp]
            have : tok '\t' = ['\\', 't'] := by decide
            simp [mapConcat, this]
          · have htk : mapConcat tok (c :: s') = c :: mapConcat tok s' := by
              simp [mapConcat, tok, h2, h3, h4]
            rw [htk]
            rw [splitNL_cons_ne c _ h1 _ _ hsp2]
            rw [splitNL_cons_ne c s' h1 hh tt hsp]
            simp [mapConcat, tok, h2, h3, h4]

theorem splitNL_head_sw : ∀ (s hh : List Char) (tt : List (List Char)),
    splitNL s = hh :: tt → startsWith hh s = true := by
  intro s
  induction s with
  | nil =>
    intro hh tt h
    simp only [splitNL, splitOnCh] at h
    injection h with h1 _
    rw [← h1]
    exact startsWith_nil_left _
  | cons c cs ih =>
    intro hh tt h
    by_cases hc : c = '\n'
    · subst hc
      rw [splitNL_cons_nl] at h
      injection h with h1 _
      rw [← h1]
      exact startsWith_nil_left _
    · obtain ⟨hh', tt', hsp⟩ := splitNL_cons_struct cs
      rw [splitNL_cons_ne c cs hc hh' tt' hsp] at h
      injection h with h1 _
      rw [← h1]
      simp only [startsWith, beq_self_eq_true, Bool.true_and]
      exact ih hh' tt' hsp

theorem startsWith_trans : ∀ a b c : List Char,
    startsWith a b = true → startsWith b c = true → startsWith a c = true := by
  intro a
  induction a with
  | nil => intro b c _ _; exact startsWith_nil_left c
  | cons x xs ih =>
    intro b c hab hbc
    cases b with
    | nil => simp [startsWith] at hab
    | cons y ys =>
      cases c with
      | nil => simp [startsWith] at hbc
      | cons z zs =>
        simp only [startsWith, Bool.and_eq_true, beq_iff_eq] at hab hbc ⊢
        exact ⟨hab.1.trans hbc.1, ih ys zs hab.2 hbc.2⟩

theorem containsSub_of_sw : ∀ s1 s2 pat : List Char, startsWith s1 s2 = true →
    containsSub pat s1 = true → containsSub pat s2 = true := by
  intro s1
  induction s1 with
  | nil =>
    intro s2 pat _ h
    unfold containsSub at h
    cases pat with
    | nil => cases s2 <;> simp [containsSub, startsWith_nil_left]
    | cons p ps => simp [startsWith] at h
  | cons x xs ih =>
    intro s2 pat hsw h
    cases s2 with
    | nil => simp [startsWith] at hsw
    | cons y ys =>
      simp only [startsWith, Bool.and_eq_true, beq_iff_eq] at hsw
      unfold containsSub at h
      unfold containsSub
      rcases Bool.or_eq_true_iff.1 h with h | h
      · have hsw2 : startsWith (x :: xs) (y :: ys) = true := by
          simp only [startsWith, Bool.and_eq_true, beq_iff_eq]
          exact hsw
        exact Bool.or_eq_true_iff.2 (Or.inl (startsWith_trans pat _ _ h hsw2))
      · exact Bool.or_eq_true_iff.2 (Or.inr (ih ys pat hsw.2 h))

theorem mem_splitNL_sub (pat : List Char) (hp : pat ≠ []) :
    ∀ s seg : List Char, seg ∈ splitNL s → containsSub pat seg = true →
      containsSub pat s = true := by
  intro s
  induction s with
  | nil =>
    intro seg hm hc
    simp only [splitNL, splitOnCh, List.mem_singleton] at hm
    subst hm
    unfold containsSub at hc
    cases pat with
    | nil => exact absurd rfl hp
    | cons p ps => simp [startsWith] at hc
  | cons c cs ih =>
    intro seg hm hc
    by_cases hnl : c = '\n'
    · subst hnl
      rw [splitNL_cons_nl] at hm
      rcases List.mem_cons.1 hm with h | h
      · subst h
        unfold containsSub at hc
        cases pat with
        | nil => exact absurd rfl hp
        | cons p ps => simp [startsWith] at hc
      · have := ih seg h hc
        unfold containsSub
        simp [this]
    · obtain ⟨hh, tt, hsp⟩ := splitNL_cons_struct cs
      rw [splitNL_cons_ne c cs hnl hh tt hsp] at hm
      rcases List.mem_cons.1 hm with h | h
      · subst h
        have hsw : startsWith (c :: hh) (c :: cs) = true := by
          simp only [startsWith, beq_self_eq_true, Bool.true_and]
          exact splitNL_head_sw cs hh tt hsp
        exact containsSub_of_sw (c :: hh) (c :: cs) pat hsw hc
      · have hmem : seg ∈ splitNL cs := by
          rw [hsp]; exact List.mem_cons_of_mem _ h
        have := ih seg hmem hc
        unfold containsSub
        simp [this]

theorem goodStr_mem_splitNL (s seg : List Char) (hm : seg ∈ splitNL s)
    (hg : goodStr s = true) : goodStr seg = true := by
  unfold goodStr at hg ⊢
  simp only [Bool.and_eq_true, Bool.not_eq_true'] at hg ⊢
  constructor
  · cases hcs : containsSub ['\\', 'n'] seg with
    | false => rfl
    | true =>
      exact absurd (mem_splitNL_sub ['\\', 'n'] (by decide) s seg hm hcs)
        (by simp [hg.1])
  · cases hcs : containsSub ['\\', 't'] seg with
    | false => rfl
    | true =>
      exact absurd (mem_splitNL_sub ['\\', 't'] (by decide) s seg hm hcs)
        (by simp [hg.2])

theorem joinWith_nl_splitNL : ∀ s : List Char, joinWith ['\n'] (splitNL s) = s := by
  intro s
  induction s with
  | nil => rfl
  | cons c cs ih =>
    obtain ⟨hh, tt, hsp⟩ := splitNL_cons_struct cs
    by_cases hc : c = '\n'
    · subst hc
      rw [splitNL_cons_nl, hsp]
      rw [hsp] at ih
      cases tt with
      | nil => simp [joinWith] at ih ⊢; exact ih
      | cons t2 ts => simp [joinWith] at ih ⊢; exact ih
    · rw [splitNL_cons_ne c cs hc hh tt hsp]
      rw [hsp] at ih
      cases tt with
      | nil => simp [joinWith] at ih ⊢; exact ih
      | cons t2 ts =>
        simp only [joinWith, List.cons_append, List.append_assoc] at ih ⊢
        rw [ih]

theorem pyStrip_quoteL (x : List Char) : pyStrip (quoteL x) = quoteL x := by
  unfold pyStrip quoteL
  have h1 : List.dropWhile isPySpace ('"' :: (x ++ ['"'])) = '"' :: (x ++ ['"']) :=
    List.dropWhile_cons_of_neg (by decide)
  rw [h1]
  have h2 : ('"' :: (x ++ ['"'])).reverse = '"' :: (x.reverse ++ ['"']) := by
    simp [List.reverse_cons, List.reverse_append]
  rw [h2]
  rw [List.dropWhile_cons_of_neg (by decide)]
  rw [← h2, List.reverse_reverse]

theorem extract_quoteL (x : List Char) : extractString (quoteL x) = unescape x := by
  unfold extractString
  rw [pyStrip_quoteL]
  rw [if_pos]
  · have h1 : (quoteL x).drop 1 = x ++ ['"'] := by simp [quoteL]
    rw [h1, List.dropLast_concat]
  · simp only [Bool.and_eq_true]
    constructor
    · simp [quoteL, startsWith, startsWith_nil_left]
    · unfold quoteL endsWithCh
      have h2 : ('"' :: (x ++ ['"'])).reverse = '"' :: (x.reverse ++ ['"']) := by
        simp [List.reverse_cons, List.reverse_append]
      rw [h2]
      simp

theorem mapConcat_tok_nil_iff (s : List Char) : mapConcat tok s = [] ↔ s = [] := by
  cases s with
  | nil => simp [mapConcat]
  | cons c cs =>
    constructor
    · intro h; exact absurd h (mapConcat_tok_ne_nil c cs)
    · intro h; cases h

theorem wrap_parse : ∀ segs : List (List Char),
    (∀ seg ∈ segs, goodStr seg = true) →
    ((wrapLines (segs.map (fun seg => mapConcat tok seg))).map extractString).flatten
      = joinWith ['\n'] segs := by
  intro segs
  induction segs with
  | nil => intro _; rfl
  | cons seg rest ih =>
    intro hg
    have hgseg : goodStr seg = true := hg seg (by simp)
    cases rest with
    | nil =>
      simp only [List.map_cons, List.map_nil]
      unfold wrapLines
      by_cases h : mapConcat tok seg = []
      · rw [if_pos h]
        have hseg : seg = [] := (mapConcat_tok_nil_iff seg).1 h
        subst hseg
        rfl
      · rw [if_neg h]
        simp only [List.map_cons, List.map_nil, List.flatten_cons, List.flatten_nil,
          List.append_nil]
        rw [extract_quoteL, unescape_tok seg hgseg]
        rfl
    | cons seg2 rest2 =>
      simp only [List.map_cons]
      show ((quoteL (mapConcat tok seg ++ ['\\', 'n'])
          :: wrapLines (mapConcat tok seg2 :: rest2.map (fun s => mapConcat tok s))).map
            extractString).flatten = _
      simp only [List.map_cons, List.flatten_cons]
      rw [extract_quoteL, unescape_marker seg hgseg]
      have ihr := ih (fun s hs => hg s (List.mem_cons_of_mem _ hs))
      simp only [List.map_cons] at ihr
      rw [ihr]
      show _ = seg ++ ['\n'] ++ joinWith ['\n'] (seg2 :: rest2)
      rw [List.append_assoc]

/-- C2 counterexample: for a string containing a quote, a tab, an
embedded newline and a backslash followed by the letter n, unescaping
the Updater's escaped form does not give back the original string: the
unescape chain resolves the backslash-n first and so turns the escaped
backslash followed by a literal n into a backslash followed by a real
newline. -/
theorem c2_escape_roundtrip_cex :
    unescape (escape ("\"\t\n\\n".toList)) ≠ "\"\t\n\\n".toList := by decide

/-- C2 (amended): for every string in which no literal backslash is
immediately followed by the letter n or the letter t, unescaping the
escaped form gives back the string, and the physical lines written by
`_format_string` parse back via the Parser's string extraction
(dequoting, unescaping and concatenating every line) to the same
logical value. -/
theorem c2_escape_roundtrip (s : List Char) (hg : goodStr s = true) :
    unescape (escape s) = s
    ∧ ((formatString s).map extractString).flatten = s := by
  have h1 : unescape (escape s) = s := by
    rw [escape_eq_mapConcat]
    exact unescape_tok s hg
  refine ⟨h1, ?_⟩
  unfold formatString
  by_cases hc : ((splitNL (escape s)).length = 1 ∧ (escape s).length < 70)
  · rw [if_pos (by simp [hc.1, hc.2])]
    simp only [List.map_cons, List.map_nil, List.flatten_cons, List.flatten_nil,
      List.append_nil]
    rw [extract_quoteL]
    exact h1
  · rw [if_neg (by simpa using hc)]
    simp only [List.map_cons, List.flatten_cons]
    rw [extract_quoteL]
    rw [(rfl : unescape ([] : List Char) = [])]
    rw [escape_eq_mapConcat, splitNL_mapConcat]
    rw [wrap_parse (splitNL s) (fun seg hs => goodStr_mem_splitNL s seg hs hg)]
    rw [joinWith_nl_splitNL]
    rfl

/-- Witness for C2 at a concrete string holding a newline, a quote, a
tab and a backslash followed by an ordinary letter. -/
theorem c2_escape_roundtrip_witness :
    goodStr ("a\n\"\t\\x".toList) = true
    ∧ (unescape (escape ("a\n\"\t\\x".toList)) = "a\n\"\t\\x".toList
      ∧ ((formatString ("a\n\"\t\\x".toList)).map extractString).flatten
          = "a\n\"\t\\x".toList) :=
  ⟨by decide, c2_escape_roundtrip _ (by decide)⟩

/-- Lines belonging to a msgstr directive group: the directive line
itself (singular or plural) or a quoted continuation line. -/
def msgstrish (l : List Char) : Bool :=
  startsWith ("msgstr".toList) (pyStrip l) || startsWith ['"'] (pyStrip l)

theorem pyStrip_eq_self_of_ends (a b : Char) (mid : List Char)
    (ha : isPySpace a = false) (hb : isPySpace b = false) :
    pyStrip (a :: (mid ++ [b])) = a :: (mid ++ [b]) := by
  unfold pyStrip
  rw [List.dropWhile_cons_of_neg (by simp [ha])]
  have h2 : (a :: (mid ++ [b])).reverse = b :: (mid.reverse ++ [a]) := by
    simp [List.reverse_cons, List.reverse_append]
  rw [h2, List.dropWhile_cons_of_neg (by simp [hb]), ← h2, List.reverse_reverse]

theorem msgstrish_quoteL (z : List Char) : msgstrish (quoteL z) = true := by
  unfold msgstrish
  rw [pyStrip_quoteL]
  have h2 : startsWith ['"'] (quoteL z) = true := by
    simp [quoteL, startsWith, startsWith_nil_left]
  simp [h2]

theorem msgstrish_msgstr_quote (z : List Char) :
    msgstrish ("msgstr ".toList ++ quoteL z) = true := by
  unfold msgstrish
  have hshape : "msgstr ".toList ++ quoteL z
      = 'm' :: (('s' :: 'g' :: 's' :: 't' :: 'r' :: ' ' :: '"' :: z) ++ ['"']) := by
    simp [quoteL]
  rw [hshape, pyStrip_eq_self_of_ends 'm' '"' _ (by decide) (by decide)]
  have h1 : startsWith ("msgstr".toList)
      ('m' :: (('s' :: 'g' :: 's' :: 't' :: 'r' :: ' ' :: '"' :: z) ++ ['"'])) = true := by
    simp [startsWith, startsWith_nil_left]
  simp only [Bool.or_eq_true]
  exact Or.inl (by simpa using h1)

theorem wrapLines_mem_quote : ∀ (ls : List (List Char)) (el : List Char),
    el ∈ wrapLines ls → ∃ z, el = quoteL z := by
  intro ls
  induction ls with
  | nil => intro el h; simp [wrapLines] at h
  | cons l ls' ih =>
    cases ls' with
    | nil =>
      intro el h
      unfold wrapLines at h
      by_cases hl : l = []
      · rw [if_pos hl] at h; simp at h
      · rw [if_neg hl] at h
        simp only [List.mem_singleton] at h
        exact ⟨l, h⟩
    | cons l2 ls'' =>
      intro el h
      unfold wrapLines at h
      rcases List.mem_cons.1 h with h | h
      · exact ⟨l ++ ['\\', 'n'], h⟩
      · exact ih el h

theorem formatString_mem_quote (x el : List Char) (h : el ∈ formatString x) :
    ∃ z, el = quoteL z := by
  unfold formatString at h
  by_cases hc : ((splitNL (escape x)).length = 1
      && decide ((escape x).length < 70)) = true
  · rw [if_pos hc] at h
    simp only [List.mem_singleton] at h
    exact ⟨escape x, h⟩
  · rw [if_neg hc] at h
    rcases List.mem_cons.1 h with h | h
    · exact ⟨[], h⟩
    · exact wrapLines_mem_quote _ el h

theorem formatString_ne_nil (x : List Char) : formatString x ≠ [] := by
  unfold formatString
  by_cases hc : ((splitNL (escape x)).length = 1
      && decide ((escape x).length < 70)) = true
  · rw [if_pos hc]; simp
  · rw [if_neg hc]; simp

theorem formatString_head_quote (x : List Char) :
    ∃ z, (formatString x).headD [] = quoteL z := by
  cases hf : formatString x with
  | nil => exact absurd hf (formatString_ne_nil x)
  | cons f0 fr =>
    have : f0 ∈ formatString x := by rw [hf]; exact List.mem_cons_self _ _
    obtain ⟨z, hz⟩ := formatString_mem_quote x f0 this
    exact ⟨z, by simp [hz]⟩

theorem filter_msgstrish_nil : ∀ ls : List (List Char),
    (∀ el ∈ ls, msgstrish el = true) →
    ls.filter (fun l => !msgstrish l) = [] := by
  intro ls
  induction ls with
  | nil => intro _; rfl
  | cons l ls' ih =>
    intro h
    rw [List.filter_cons]
    rw [if_neg (by simp [h l (List.mem_cons_self _ _)])]
    exact ih (fun el hel => h el (List.mem_cons_of_mem _ hel))

theorem parseIdx_some_sw (l : List Char) (idx : Nat)
    (h : parseMsgstrIdx l = some idx) :
    startsWith ("msgstr[".toList) l = true := by
  unfold parseMsgstrIdx msgstrIdxParts at h
  by_cases hsw : startsWith ("msgstr[".toList) l = true
  · exact hsw
  · rw [if_neg (by simpa using hsw)] at h
    simp at h

theorem countCont_pos (rest : List (List Char)) (k : Nat)
    (h : countCont rest = k + 1) :
    ∃ r0 rest', rest = r0 :: rest' ∧ startsWith ['"'] (pyStrip r0) = true := by
  cases rest with
  | nil => simp [countCont] at h
  | cons r0 rest' =>
    refine ⟨r0, rest', rfl, ?_⟩
    by_cases hq : startsWith ['"'] (pyStrip r0) = true
    · exact hq
    · unfold countCont at h
      rw [List.takeWhile_cons_of_neg (by simpa using hq)] at h
      simp at h

theorem updateGo_frame_aux (t : TransTask) (h1 : t.msgid_plural = none)
    (h2 : t.translations = none) :
    ∀ (n : Nat) (ls : List (List Char)), ls.length ≤ n →
      ((updateGo t false 0 ls).lines).filter (fun l => !msgstrish l)
        = ls.filter (fun l => !msgstrish l) := by
  intro n
  induction n with
  | zero =>
    intro ls h
    have : ls = [] := List.length_eq_zero.1 (Nat.le_zero.1 h)
    subst this
    rfl
  | succ n ih =>
    intro ls hlen
    cases ls with
    | nil => rfl
    | cons l rest =>
      have hrest : rest.length ≤ n := Nat.le_of_succ_le_succ hlen
      by_cases hm : startsWith ['m', 's', 'g', 's', 't', 'r', ' ', '"'] (pyStrip l) = true
      · have hms : startsWith ['m', 's', 'g', 's', 't', 'r'] (pyStrip l) = true :=
          startsWith_trans _ _ _ (by decide) hm
        have hml : msgstrish l = true := by
          unfold msgstrish
          simp [hms]
        simp only [updateGo]
        rw [if_neg (by simp)]
        rw [if_pos (by simp [hm, h1])]
        obtain ⟨z0, hz0⟩ := formatString_head_quote (t.translation.getD [])
        have hz0' : (formatString (t.translation.getD [])).head?.getD [] = quoteL z0 := by
          simpa using hz0
        simp only []
        rw [List.filter_cons]
        rw [if_neg (by
          rw [hz0]
          simp only [Bool.not_eq_true, Bool.not_eq_true']
          simpa using msgstrish_msgstr_quote z0)]
        rw [List.filter_append]
        rw [filter_msgstrish_nil ((formatString (t.translation.getD [])).drop 1)
          (fun el hel => by
            obtain ⟨z, hz⟩ := formatString_mem_quote (t.translation.getD []) el
              (List.mem_of_mem_drop hel)
            rw [hz]
            exact msgstrish_quoteL z)]
        simp only [List.nil_append]
        rw [List.filter_cons]
        rw [if_neg (by simp [hml])]
        cases hcc : countCont rest with
        | zero =>
          exact ih rest hrest
        | succ k =>
          obtain ⟨r0, rest', hr, hq⟩ := countCont_pos rest k hcc
          subst hr
          have hstep : updateGo t false (k + 1) (r0 :: rest')
              = updateGo t false 0 rest' := by
            simp only [updateGo]
          rw [hstep]
          rw [List.filter_cons]
          rw [if_neg (by simp [msgstrish, hq])]
          refine ih rest' ?_
          simp only [List.length_cons] at hrest
          omega
      · simp only [updateGo]
        rw [if_neg (by simp)]
        rw [if_neg (by simp [hm])]
        rw [h2]
        cases hpi : parseMsgstrIdx (pyStrip l) with
        | none =>
          simp only []
          rw [List.filter_cons, List.filter_cons]
          by_cases hml : msgstrish l = true
          · rw [if_neg (by simp [hml]), if_neg (by simp [hml])]
            exact ih rest hrest
          · have hml' : msgstrish l = false := by
              cases hh : msgstrish l
              · rfl
              · exact absurd hh hml
            rw [if_pos (by simp [hml']), if_pos (by simp [hml'])]
            rw [ih rest hrest]
        | some idx =>
          simp only []
          rw [List.filter_cons, List.filter_cons]
          have hml : msgstrish l = true := by
            unfold msgstrish
            have hsw7 : startsWith ['m', 's', 'g', 's', 't', 'r', '['] (pyStrip l) = true := by
              simpa using parseIdx_some_sw (pyStrip l) idx hpi
            have hms : startsWith ['m', 's', 'g', 's', 't', 'r'] (pyStrip l) = true :=
              startsWith_trans _ _ _ (by decide) hsw7
            simp [hms]
          rw [if_neg (by simp [hml]), if_neg (by simp [hml])]
          exact ih rest hrest

theorem processContent_fst (tmap fmap : List (List Char × TransTask))
    (content : List Char) :
    (processContent tmap fmap content).1
      = ((splitKeep content).map (fun b => (processBlock tmap fmap b).1)).flatten := by
  unfold processContent
  generalize splitKeep content = ps
  induction ps with
  | nil => rfl
  | cons b bs ih =>
    simp only [List.foldr_cons, List.map_cons, List.flatten_cons]
    rw [← ih]

theorem processBlock_unmatched (m : List Char) (t : TransTask) (b : List Char)
    (h : pyStrip b = [] ∨ extractMsgid b ≠ m ∨ m = []) :
    (processBlock [(m, t)] [] b).1 = b := by
  unfold processBlock
  by_cases hs : pyStrip b = []
  · rw [if_pos hs]
  · rw [if_neg hs]
    by_cases hmne : extractMsgid b ≠ []
    · rw [if_pos hmne]
      have hne : extractMsgid b ≠ m := by
        rcases h with h | h | h
        · exact absurd h hs
        · exact h
        · rw [h]; exact hmne
      have hl : lookupA (extractMsgid b) [(m, t)] = none := by
        unfold lookupA
        rw [if_neg hne]
        rfl
      rw [hl]
      rfl
    · rw [if_neg hmne]

theorem processBlock_matched (m : List Char) (t : TransTask) (b : List Char)
    (fmap : List (List Char × TransTask))
    (hs : pyStrip b ≠ []) (hm : extractMsgid b = m) (hmne : m ≠ []) :
    processBlock [(m, t)] fmap b = updateBlock b t false := by
  unfold processBlock
  rw [if_neg (by simpa using hs), hm, if_pos hmne]
  unfold lookupA
  rw [if_pos rfl]

/-- C4 counterexample: updating the single singular entry of a catalog
whose block begins with a whitespace-indented comment line destroys the
indentation of that comment line — the block is stripped before being
re-joined, so the output no longer contains the original comment line
even though only the msgstr line was supposed to change. -/
theorem c4_targeted_mutation_cex :
    (processContent [("a".toList, ⟨"a".toList, some ("z".toList), none, none⟩)] []
        ("  # note\nmsgid \"a\"\nmsgstr \"\"".toList)).1
      = "# note\nmsgid \"a\"\nmsgstr \"z\"".toList
    ∧ containsSub ("  # note".toList) ("  # note\nmsgid \"a\"\nmsgstr \"\"".toList) = true
    ∧ containsSub ("  # note".toList)
        (processContent [("a".toList, ⟨"a".toList, some ("z".toList), none, none⟩)] []
          ("  # note\nmsgid \"a\"\nmsgstr \"\"".toList)).1 = false := by
  refine ⟨by decide, by decide, by decide⟩

/-- C4 (amended): with a single singular task and under the proviso that
every matched block carries no strippable leading or trailing
whitespace, the update is a frame-preserving rewrite: the output is the
concatenation of the per-piece rewrites, pieces that do not match the
task's msgid (including all separators) are byte-identical, and inside a
matched block every line that is not part of a msgstr directive group
(the directive line or a quoted continuation line) survives unchanged
and in order — only msgstr lines are touched. -/
theorem c4_targeted_mutation (content m : List Char) (t : TransTask)
    (h1 : t.msgid_plural = none) (h2 : t.translations = none)
    (hstrip : ∀ b ∈ splitKeep content, extractMsgid b = m → pyStrip b = b) :
    (processContent [(m, t)] [] content).1
      = ((splitKeep content).map (fun b => (processBlock [(m, t)] [] b).1)).flatten
    ∧ (∀ b ∈ splitKeep content,
        pyStrip b = [] ∨ extractMsgid b ≠ m ∨ m = [] →
        (processBlock [(m, t)] [] b).1 = b)
    ∧ (∀ b ∈ splitKeep content,
        pyStrip b ≠ [] → extractMsgid b = m → m ≠ [] →
        (processBlock [(m, t)] [] b).1
            = joinWith ['\n'] (updateGo t false 0 (splitNL b)).lines
          ∧ ((updateGo t false 0 (splitNL b)).lines).filter (fun l => !msgstrish l)
            = (splitNL b).filter (fun l => !msgstrish l)) := by
  refine ⟨processContent_fst _ _ _, ?_, ?_⟩
  · intro b _ h
    exact processBlock_unmatched m t b h
  · intro b hb hs hm hmne
    have hsb : pyStrip b = b := hstrip b hb hm
    constructor
    · rw [processBlock_matched m t b [] hs hm hmne]
      unfold updateBlock
      rw [hsb]
    · exact updateGo_frame_aux t h1 h2 (splitNL b).length (splitNL b) le_rfl

/-- Witness for C4 at a concrete two-block catalog whose first block
matches the single singular task. -/
theorem c4_targeted_mutation_witness :
    (∀ b ∈ splitKeep ("msgid \"a\"\nmsgstr \"\"\n\nmsgid \"b\"\nmsgstr \"y\"".toList),
      extractMsgid b = "a".toList → pyStrip b = b)
    ∧ (processContent
        [("a".toList, (⟨"a".toList, some ("z".toList), none, none⟩ : TransTask))] []
        ("msgid \"a\"\nmsgstr \"\"\n\nmsgid \"b\"\nmsgstr \"y\"".toList)).1
      = ((splitKeep ("msgid \"a\"\nmsgstr \"\"\n\nmsgid \"b\"\nmsgstr \"y\"".toList)).map
          (fun b => (processBlock
            [("a".toList, (⟨"a".toList, some ("z".toList), none, none⟩ : TransTask))] []
            b).1)).flatten
    ∧ (processBlock
        [("a".toList, (⟨"a".toList, some ("z".toList), none, none⟩ : TransTask))] []
        ("msgid \"b\"\nmsgstr \"y\"".toList)).1 = "msgid \"b\"\nmsgstr \"y\"".toList
    ∧ ((updateGo (⟨"a".toList, some ("z".toList), none, none⟩ : TransTask) false 0
          (splitNL ("msgid \"a\"\nmsgstr \"\"".toList))).lines).filter
        (fun l => !msgstrish l)
      = (splitNL ("msgid \"a\"\nmsgstr \"\"".toList)).filter (fun l => !msgstrish l) := by
  have h := c4_targeted_mutation
    ("msgid \"a\"\nmsgstr \"\"\n\nmsgid \"b\"\nmsgstr \"y\"".toList) ("a".toList)
    ⟨"a".toList, some ("z".toList), none, none⟩ rfl rfl (by decide)
  refine ⟨by decide, h.1, ?_, ?_⟩
  · exact h.2.1 _ (by decide) (by decide)
  · exact (h.2.2 _ (by decide) (by decide) (by decide) (by decide)).2
